import Mathlib

/-!
Verification of the caching and search-acceleration core of the obsidian-mcp
repository.  JavaScript strings are modelled as lists of characters, JS `Map`
and `Set` values as association lists or finite sets, JS numbers as `Nat`/`Int`
(counts, timestamps) or `ℝ` (floating-point scores), and stateful classes as
explicit state records with pure transition functions.
-/

/-- JS strings are modelled as lists of characters. -/
abbrev Str := List Char

/-- Model of `String.prototype.split(sep)` for a single-character separator:
always returns a non-empty list of (possibly empty) chunks. -/
def splitC (sep : Char) : Str → List Str
  | [] => [[]]
  | c :: rest =>
    match splitC sep rest with
    | [] => [[]]
    | r :: rs => if c = sep then [] :: r :: rs else (c :: r) :: rs

/-- Model of `str.replace(/\\/g, '/')`: path-separator normalisation used by
`ContentCache.normalizePath`, `InvertedIndex.normalizePath` and
`PathTrie.normalizePath`. -/
def normalizeSlashes (s : Str) : Str :=
  s.map (fun c => if c = '\\' then '/' else c)

/-- Model of `str.toLowerCase()` (ASCII case folding). -/
def lowerStr (s : Str) : Str :=
  s.map Char.toLower

/-- Characters matched by the JS `\s` regex class (ASCII part). -/
def isJsWhitespace (c : Char) : Bool :=
  c = ' ' ∨ c = '\t' ∨ c = '\n' ∨ c = '\r' ∨ c = '\x0b' ∨ c = '\x0c'

/-- Helper for `wordCount`: counts maximal whitespace-free runs; the flag
records whether the scan is currently inside a word. -/
def wordCountAux : Str → Bool → Nat
  | [], _ => 0
  | c :: rest, inWord =>
    if isJsWhitespace c then wordCountAux rest false
    else (if inWord then 0 else 1) + wordCountAux rest true

/-- Model of `content.split(/\s+/).filter(w => w.length > 0).length` used by
`SearchScorer.countWords` and `ContentCache.computeWordCount`. -/
def wordCount (s : Str) : Nat :=
  wordCountAux s false

/-- Model of `content.split('\n').length` (`totalLines` in the scorer). -/
def lineCount (s : Str) : Nat :=
  s.count '\n' + 1

/-- Helper for `countOccurrences`: the JS loop
`while ((position = text.indexOf(searchTerm, position)) !== -1)
 \x7b count++; position += searchTerm.length; \x7d`
counts non-overlapping occurrences, each found occurrence advancing the scan
past itself. -/
def countOccAux : Str → Str → Nat
  | [], _ => 0
  | c :: rest, q =>
    if q ≠ [] ∧ q.isPrefixOf (c :: rest) then
      1 + countOccAux ((c :: rest).drop q.length) q
    else
      countOccAux rest q
termination_by t _ => t.length
decreasing_by
  · simp only [List.length_drop, List.length_cons]
    rename_i h
    have hq : 1 ≤ q.length := by
      cases q with
      | nil => exact absurd rfl h.1
      | cons a as => simp
    omega
  · simp

/-- Model of `SearchScorer.countOccurrences`. -/
def countOccurrences (text searchTerm : Str) : Nat :=
  if text = [] ∨ searchTerm = [] then 0 else countOccAux text searchTerm

/-- Model of the `Match` record of `types/index.ts`: a 1-indexed line, an
optional 0-indexed column, and optional context/snippet strings. -/
structure SearchMatch where
  line : Nat
  column : Option Nat := none
  context : Option Str := none
  snippet : Option Str := none
deriving DecidableEq, Repr

namespace Scorer

/-- The scorer reads only the `line` field of a match. -/
abbrev SMatch := SearchMatch

/-- Model of `ScoringWeights`. -/
structure ScoringWeights where
  termFrequency : ℝ
  position : ℝ
  density : ℝ

/-- Model of `DEFAULT_WEIGHTS`. -/
noncomputable def defaultWeights : ScoringWeights :=
  { termFrequency := 0.4, position := 0.3, density := 0.3 }

/-- `Math.min(...matches.map(m => m.line))` over a non-empty match list. -/
def firstLine : List SMatch → Nat
  | [] => 0
  | [m] => m.line
  | m :: m2 :: ms => min m.line (firstLine (m2 :: ms))

/-- Model of `SearchScorer.calculateTermFrequency`.  `Math.log1p x` is
`Real.log (1 + x)`. -/
noncomputable def calculateTermFrequency (content query : Str) : ℝ :=
  if content = [] ∨ query = [] then 0
  else
    let termCount := countOccurrences (lowerStr content) (lowerStr query)
    let totalWords := wordCount content
    if totalWords = 0 then 0
    else
      min 1 (Real.log (1 + ((termCount : ℝ) / (totalWords : ℝ)) * 100) /
        Real.log (1 + 100))

/-- Model of `SearchScorer.calculatePositionBonus`. -/
noncomputable def calculatePositionBonus (matchList : List SMatch)
    (totalLines : Nat) : ℝ :=
  if matchList = [] ∨ totalLines = 0 then 0
  else Real.exp (-((((firstLine matchList : ℝ) - 1) / (totalLines : ℝ)) * 3))

/-- Model of `SearchScorer.calculateDensityBonus`. -/
noncomputable def calculateDensityBonus (matchList : List SMatch)
    (totalLines : Nat) : ℝ :=
  if matchList = [] ∨ totalLines = 0 then 0
  else
    min 1 (Real.log (1 + ((matchList.length : ℝ) / (totalLines : ℝ)) * 100) /
      Real.log (1 + 50))

/-- Model of `SearchScorer.calculateScore`. -/
noncomputable def calculateScore (w : ScoringWeights) (matchList : List SMatch)
    (content query : Str) : ℝ :=
  if matchList = [] ∨ content = [] ∨ query = [] then 0
  else
    let totalLines := lineCount content
    min 1 (max 0
      (calculateTermFrequency content query * w.termFrequency +
       calculatePositionBonus matchList totalLines * w.position +
       calculateDensityBonus matchList totalLines * w.density))

end Scorer

namespace InvertedIndex

/-- Model of `InvertedIndexOptions`. -/
structure Options where
  minWordLength : Nat
  maxWordsPerFile : Nat
  stopWords : List Str

/-- Model of `DEFAULT_STOP_WORDS`. -/
def defaultStopWords : List Str :=
  (["the", "a", "an", "and", "or", "but", "in", "on", "at", "to", "for",
    "of", "with", "by", "from", "as", "is", "was", "are", "were", "been",
    "be", "have", "has", "had", "do", "does", "did", "will", "would", "could",
    "should", "may", "might", "must", "shall", "can", "need", "dare", "ought",
    "used", "it", "its", "this", "that", "these", "those", "i", "you", "he",
    "she", "we", "they", "what", "which", "who", "whom", "whose", "where",
    "when", "why", "how", "all", "each", "every", "both", "few", "more",
    "most", "other", "some", "such", "no", "nor", "not", "only", "own",
    "same", "so", "than", "too", "very", "just", "also", "now", "here"]
    : List String).map String.toList

/-- Model of `DEFAULT_OPTIONS` of the inverted index. -/
def defaultOptions : Options :=
  { minWordLength := 3, maxWordsPerFile := 10000, stopWords := defaultStopWords }

/-- A word character in the sense of the JS regex `\w` (ASCII). -/
def isWordChar (c : Char) : Bool :=
  c.isAlphanum ∨ c = '_'

/-- Model of `content.split(/[\s\W]+/)`: splits on maximal runs of
non-word characters (whitespace is a non-word character). -/
def splitRuns : Str → List Str
  | [] => [[]]
  | c :: rest =>
    match splitRuns rest with
    | [] => [[]]
    | r :: rs =>
      if isWordChar c then (c :: r) :: rs
      else if r = [] ∧ rs ≠ [] then r :: rs
      else [] :: r :: rs

/-- The token loop of `InvertedIndex.extractWords`: skips short words and
stop words, adds the rest to the set, counts every accepted token and stops
once the count reaches `maxWordsPerFile`. -/
def extractAux (opts : Options) : List Str → Finset Str → Nat → Finset Str
  | [], ws, _ => ws
  | w :: rest, ws, count =>
    if w.length < opts.minWordLength ∨ w ∈ opts.stopWords then
      extractAux opts rest ws count
    else
      let ws' := insert w ws
      if count + 1 ≥ opts.maxWordsPerFile then ws'
      else extractAux opts rest ws' (count + 1)

/-- Model of `InvertedIndex.extractWords`. -/
def extractWords (opts : Options) (content : Str) : Finset Str :=
  extractAux opts (splitRuns (lowerStr content)) ∅ 0

/-- State of an `InvertedIndex` instance.  The JS `Map`s are modelled as
functions into `Option (Finset Str)`: `none` is key absence. -/
@[ext]
structure IndexState where
  wordToFiles : Str → Option (Finset Str)
  fileToWords : Str → Option (Finset Str)
  enabled : Bool

/-- The state of a freshly constructed `InvertedIndex`. -/
def emptyIndex : IndexState :=
  { wordToFiles := fun _ => none, fileToWords := fun _ => none, enabled := true }

/-- Model of `InvertedIndex.invalidate`: removes the path from every word set
it belonged to (via the inverse map), pruning words whose file set becomes
empty, then drops the path's word set. -/
def invalidate (s : IndexState) (filePath : Str) : IndexState :=
  let np := normalizeSlashes filePath
  match s.fileToWords np with
  | none => s
  | some words =>
    { wordToFiles := fun w =>
        if w ∈ words then
          match s.wordToFiles w with
          | none => none
          | some files =>
            let files' := files.erase np
            if files' = ∅ then none else some files'
        else s.wordToFiles w,
      fileToWords := fun p => if p = np then none else s.fileToWords p,
      enabled := s.enabled }

/-- Model of `InvertedIndex.indexContent`: no-op when disabled or the content
is empty; otherwise first invalidates the path, then records the extracted
words in both maps. -/
def indexContent (opts : Options) (s : IndexState) (filePath content : Str) :
    IndexState :=
  if ¬ s.enabled ∨ content = [] then s
  else
    let np := normalizeSlashes filePath
    let s1 := invalidate s filePath
    let ws := extractWords opts content
    { wordToFiles := fun w =>
        if w ∈ ws then some (insert np ((s1.wordToFiles w).getD ∅))
        else s1.wordToFiles w,
      fileToWords := fun p => if p = np then some ws else s1.fileToWords p,
      enabled := s1.enabled }

/-- Model of `InvertedIndex.clear`. -/
def clear (s : IndexState) : IndexState :=
  { wordToFiles := fun _ => none, fileToWords := fun _ => none,
    enabled := s.enabled }

/-- Model of `InvertedIndex.setEnabled`: disabling clears the index. -/
def setEnabled (s : IndexState) (b : Bool) : IndexState :=
  if b then { s with enabled := true }
  else { wordToFiles := fun _ => none, fileToWords := fun _ => none,
         enabled := false }

/-- Index states reachable from the empty index through the public mutators. -/
inductive Reachable (opts : Options) : IndexState → Prop
  | empty : Reachable opts emptyIndex
  | index (p c : Str) (h : Reachable opts s) :
      Reachable opts (indexContent opts s p c)
  | inval (p : Str) (h : Reachable opts s) : Reachable opts (invalidate s p)
  | setE (b : Bool) (h : Reachable opts s) : Reachable opts (setEnabled s b)
  | clearR (h : Reachable opts s) : Reachable opts (clear s)

/-- Well-formedness of an index state: the two maps are mutual inverses,
`wordToFiles` never maps a word to a recorded empty set (empty sets are
pruned eagerly), and a disabled index is empty. -/
def Wf (s : IndexState) : Prop :=
  (∀ w p, w ∈ (s.fileToWords p).getD ∅ ↔ p ∈ (s.wordToFiles w).getD ∅) ∧
  (∀ w, s.wordToFiles w ≠ some ∅) ∧
  (s.enabled = false →
    s.wordToFiles = (fun _ => none) ∧ s.fileToWords = (fun _ => none))

end InvertedIndex

/-- Model of `Map.prototype.set` / JS object property assignment on an
association list: an existing key keeps its position and gets the new value,
a new key is appended at the recent end. -/
def assocSet {β : Type} (k : Str) (v : β) (l : List (Str × β)) : List (Str × β) :=
  if (l.lookup k).isSome then
    l.map (fun kv => if kv.1 = k then (k, v) else kv)
  else l ++ [(k, v)]

namespace PersistentCache

/-- Model of the LMDB row `PersistentCacheEntry<T>`:
`\x7b data, timestamp, mtime? \x7d`. -/
structure PRow (α : Type) where
  data : α
  timestamp : Int
  mtime : Option Int
deriving Repr, DecidableEq

/-- A partition of the persistent store, keyed by strings. -/
abbrev Rows (α : Type) := List (Str × PRow α)

/-- Model of `PersistentCache.set`: overwrite with a fresh timestamp. -/
def pset {α : Type} (k : Str) (d : α) (now : Int) (mtime : Option Int)
    (rows : Rows α) : Rows α :=
  rows.filter (fun kv => kv.1 ≠ k) ++ [(k, ⟨d, now, mtime⟩)]

/-- Model of `PersistentCache.delete` / `removeSync`. -/
def pdelete {α : Type} (k : Str) (rows : Rows α) : Rows α :=
  rows.filter (fun kv => kv.1 ≠ k)

/-- Model of `PersistentCache.has` (`doesExist`). -/
def phas {α : Type} (k : Str) (rows : Rows α) : Bool :=
  (rows.lookup k).isSome

/-- Model of `PersistentCache.getWithMtime`: a stored mtime different from the
given one deletes the row and reports a miss.  Returns the result together
with the updated partition. -/
def getWithMtime {α : Type} (k : Str) (currentMtime : Int) (rows : Rows α) :
    Option α × Rows α :=
  match rows.lookup k with
  | none => (none, rows)
  | some row =>
    if row.mtime ≠ some currentMtime then (none, pdelete k rows)
    else (some row.data, rows)

/-- Model of `PersistentCache.getWithTtl`: an expired row is deleted and
reported as a miss. -/
def getWithTtl {α : Type} (k : Str) (ttl : Int) (now : Int) (rows : Rows α) :
    Option α × Rows α :=
  match rows.lookup k with
  | none => (none, rows)
  | some row =>
    if now - row.timestamp > ttl then (none, pdelete k rows)
    else (some row.data, rows)

end PersistentCache

namespace ContentCache

open PersistentCache

/-- Model of `CachedFrontmatter`; the `data` map is carried opaquely as a list
of key/value string pairs (no modeled operation reads it). -/
structure CachedFrontmatter where
  tags : List Str
  data : List (Str × Str)
  hasFrontmatter : Bool
deriving DecidableEq, Repr

/-- Characters admitted inside an inline tag by the inline-tag regex: word characters, slash or dash. -/
def tagChar (c : Char) : Bool :=
  InvertedIndex.isWordChar c ∨ c = '/' ∨ c = '-'

/-- Global-match loop of the global inline-tag regex match over the content: collects each
maximal `#`-introduced run of tag characters, scanning past every match. -/
def inlineTagsAux : Str → List Str
  | [] => []
  | c :: rest =>
    if c = '#' then
      match rest.takeWhile tagChar with
      | [] => inlineTagsAux rest
      | run => run :: inlineTagsAux (rest.drop run.length)
    else inlineTagsAux rest
termination_by s => s.length
decreasing_by
  all_goals simp only [List.length_drop, List.length_cons]
  all_goals omega

/-- Model of `[...new Set(l)]`: de-duplication keeping first occurrences. -/
def dedupFirst : List Str → List Str
  | [] => []
  | x :: xs => x :: dedupFirst (xs.filter (fun y => y ≠ x))
termination_by l => l.length
decreasing_by
  simp only [List.length_cons]
  exact Nat.lt_succ_of_le (List.length_filter_le _ _)

/-- Model of `ContentCache.extractInlineTags`. -/
def extractInlineTags (content : Str) : List Str :=
  if content = [] then []
  else dedupFirst ((inlineTagsAux content).map lowerStr)

/-- Model of `ContentCache.computeWordCount` (same splitting as the scorer,
with an explicit empty-content guard). -/
def computeWordCount (content : Str) : Nat :=
  if content = [] then 0 else wordCount content

/-- Model of `ContentCache.computeLineCount`. -/
def computeLineCount (content : Str) : Nat :=
  if content = [] then 0 else lineCount content

/-- Model of `ContentCacheEntry`. -/
structure Entry where
  content : Str
  mtime : Int
  parsedFrontmatter : Option CachedFrontmatter := none
  wordCountF : Option Nat := none
  lineCountF : Option Nat := none
  inlineTags : Option (List Str) := none
deriving DecidableEq, Repr

/-- State of a `ContentCache` instance: the in-memory LRU map (oldest first)
with its capacity, and the optional persistent partition (`none` models a
cache constructed without LMDB backing). -/
structure CacheState where
  memory : List (Str × Entry)
  persistent : Option (Rows Entry)
  maxSize : Nat

/-- Model of `ContentCache.setInMemory`.  The JS eviction loop
`while (size >= maxSize) delete oldest` leaves `min size (maxSize - 1)`
entries before the new entry is appended; for `maxSize = 0` the JS loop does
not terminate, so every theorem below assumes `1 ≤ maxSize`. -/
def setInMemory (maxSize : Nat) (mem : List (Str × Entry)) (np : Str)
    (e : Entry) : List (Str × Entry) :=
  let m1 := mem.filter (fun kv => kv.1 ≠ np)
  m1.drop (m1.length + 1 - maxSize) ++ [(np, e)]

/-- Model of `ContentCache.set`: computes word count, line count and inline
tags at write time and stores the entry in memory and, when available, in the
persistent partition with the given mtime. -/
def set (s : CacheState) (filePath content : Str) (mtime : Int) (now : Int) :
    CacheState :=
  let np := normalizeSlashes filePath
  let e : Entry :=
    { content := content, mtime := mtime,
      wordCountF := some (computeWordCount content),
      lineCountF := some (computeLineCount content),
      inlineTags := some (extractInlineTags content) }
  { s with
    memory := setInMemory s.maxSize s.memory np e,
    persistent := s.persistent.map (pset np e now (some mtime)) }

/-- Model of `ContentCache.get`: a memory hit with a stale mtime deletes the
entry from memory and the persistent store and misses; a fresh memory hit is
promoted to most-recently-used; a memory miss consults the persistent store
with the same mtime check, warming memory on a hit. -/
def get (s : CacheState) (filePath : Str) (currentMtime : Int) :
    Option Str × CacheState :=
  let np := normalizeSlashes filePath
  match s.memory.lookup np with
  | some e =>
    if e.mtime ≠ currentMtime then
      (none,
        { s with
          memory := s.memory.filter (fun kv => kv.1 ≠ np),
          persistent := s.persistent.map (pdelete np) })
    else
      (some e.content,
        { s with memory := s.memory.filter (fun kv => kv.1 ≠ np) ++ [(np, e)] })
  | none =>
    match s.persistent with
    | none => (none, s)
    | some rows =>
      match getWithMtime np currentMtime rows with
      | (some e, rows') =>
        (some e.content,
          { s with memory := setInMemory s.maxSize s.memory np e,
                   persistent := some rows' })
      | (none, rows') => (none, { s with persistent := some rows' })

/-- Model of `ContentCache.has`: present in memory or in the persistent
partition (without any staleness check). -/
def has (s : CacheState) (filePath : Str) : Bool :=
  let np := normalizeSlashes filePath
  (s.memory.lookup np).isSome ||
    (match s.persistent with
     | none => false
     | some rows => phas np rows)

/-- Model of `ContentCache.invalidate`. -/
def invalidate (s : CacheState) (filePath : Str) : CacheState :=
  let np := normalizeSlashes filePath
  { s with
    memory := s.memory.filter (fun kv => kv.1 ≠ np),
    persistent := s.persistent.map (pdelete np) }

end ContentCache

namespace FileListCache

open PersistentCache

/-- Model of the file-list `CacheEntry`. -/
structure Entry where
  files : List Str
  timestamp : Int
deriving DecidableEq, Repr

/-- State of a `FileListCache` instance: the in-memory store (a JS object,
modelled as an association list) and the optional persistent partition. -/
structure CacheState where
  memory : List (Str × Entry)
  persistent : Option (Rows Entry)
  ttl : Int
deriving Repr

/-- The state of a freshly constructed `FileListCache` sharing an existing
persistent partition (constructor; memory starts empty). -/
def fresh (persistent : Option (Rows Entry)) (ttl : Int) : CacheState :=
  { memory := [], persistent := persistent, ttl := ttl }

/-- Model of `str.replace(/\/+$/, '')`: strips every trailing slash. -/
def dropTrailingSlashes (s : Str) : Str :=
  (s.reverse.dropWhile (fun c => c = '/')).reverse

/-- Model of `FileListCache.normalizeFolder`: backslashes to slashes, strip
trailing slashes, lower-case. -/
def normalizeFolder (folder : Str) : Str :=
  lowerStr (dropTrailingSlashes (normalizeSlashes folder))

/-- Model of `FileListCache.isRelatedFolder`: the root is related to
everything, and otherwise one folder must be a `/`-separated path-ancestor of
the other (string prefix test). -/
def isRelatedFolder (folder1 folder2 : Str) : Bool :=
  if folder1 = [] ∨ folder2 = [] then true
  else (folder2 ++ ['/']).isPrefixOf folder1 || (folder1 ++ ['/']).isPrefixOf folder2

/-- Model of `FileListCache.set`. -/
def set (s : CacheState) (folder : Str) (files : List Str) (now : Int) :
    CacheState :=
  let nf := normalizeFolder folder
  let e : Entry := { files := files, timestamp := now }
  { s with
    memory := assocSet nf e s.memory,
    persistent := s.persistent.map (pset nf e now none) }

/-- Model of the `folder !== undefined` branch of `FileListCache.invalidate`:
deletes the folder itself from memory and the persistent store, then walks
the remaining in-memory keys and deletes every related folder from memory
and the persistent store. -/
def invalidateFolder (s : CacheState) (folder : Str) : CacheState :=
  let nf := normalizeFolder folder
  let mem1 := s.memory.filter (fun kv => kv.1 ≠ nf)
  let per1 := s.persistent.map (pdelete nf)
  let ks := mem1.map (fun kv => kv.1)
  { s with
    memory := mem1.filter (fun kv => ¬ isRelatedFolder kv.1 nf),
    persistent :=
      ks.foldl (fun p g => if isRelatedFolder g nf then p.map (pdelete g) else p)
        per1 }

/-- Model of the no-argument branch of `FileListCache.invalidate`: clears
memory and the whole persistent partition. -/
def invalidateAll (s : CacheState) : CacheState :=
  { s with memory := [], persistent := s.persistent.map (fun _ => []) }

end FileListCache

namespace FileWatcher

/-- Model of `FileChangeEventType`. -/
inductive EventType
  | add
  | change
  | unlink
  | addDir
  | unlinkDir
deriving DecidableEq, Repr

/-- State of a `FileWatcher` instance during one debounce window: the
per-path pending map (a JS `Map`, insertion-ordered).  The stored
`PendingChange.timestamp` is never read by delivery and is omitted. -/
structure WatcherState where
  vaultPath : Str
  pendingChanges : List (Str × EventType)
deriving DecidableEq, Repr

/-- Model of `path.relative(vaultPath, filePath)` for the common case of a
file inside the vault; other paths are passed through unchanged. -/
def relativize (vaultPath filePath : Str) : Str :=
  if (vaultPath ++ ['/']).isPrefixOf filePath then
    filePath.drop (vaultPath.length + 1)
  else filePath

/-- Model of `filePath.endsWith('.md')`. -/
def endsWithMd (p : Str) : Bool :=
  ['.', 'm', 'd'].isSuffixOf p

/-- Model of `FileWatcher.coalesceEventType`, clause for clause. -/
def coalesceEventType (existing : Option EventType) (incoming : EventType) :
    EventType :=
  match existing with
  | none => incoming
  | some ex =>
    if ex = .add ∧ incoming = .change then .add
    else if incoming = .unlink ∨ incoming = .unlinkDir then incoming
    else if ex = .unlink ∧ incoming = .add then .change
    else incoming

/-- Model of `FileWatcher.handleChange`: non-directory events for paths not
ending in `.md` are dropped; otherwise the event is coalesced into the
per-path pending map under the vault-relative path. -/
def handleChange (s : WatcherState) (eventType : EventType) (filePath : Str) :
    WatcherState :=
  if eventType ≠ .addDir ∧ eventType ≠ .unlinkDir ∧ ¬ endsWithMd filePath then s
  else
    let rel := relativize s.vaultPath filePath
    let newType := coalesceEventType (s.pendingChanges.lookup rel) eventType
    { s with pendingChanges := assocSet rel newType s.pendingChanges }

/-- Model of `FileWatcher.processPendingChanges` (the debounce-timer body):
delivers one callback per pending entry, in map order, and clears the map.
Returns the list of delivered `(eventType, relativePath)` callbacks. -/
def processPendingChanges (s : WatcherState) :
    List (EventType × Str) × WatcherState :=
  if s.pendingChanges = [] then ([], s)
  else (s.pendingChanges.map (fun kv => (kv.2, kv.1)),
        { s with pendingChanges := [] })

end FileWatcher

namespace SearchResultCache

open PersistentCache

/-- Decimal rendering of a natural number (the JS template-literal
interpolation of a non-negative integer). -/
def natDigits (n : Nat) : List Char :=
  if h : n < 10 then [Char.ofNat (48 + n)]
  else natDigits (n / 10) ++ [Char.ofNat (48 + n % 10)]
decreasing_by
  exact Nat.div_lt_self (by omega) (by omega)

/-- Decimal rendering of an integer. -/
def intRender (i : Int) : List Char :=
  if i < 0 then '-' :: natDigits i.natAbs else natDigits i.toNat

/-- Rendering of a rational search-option value as `num/den`.  JS prints
floating-point numbers with the shortest round-tripping decimal, which is
injective on distinct numbers; this rendering is the corresponding injective
stand-in for the `ℚ` model of `minScore`. -/
def ratRender (q : ℚ) : List Char :=
  intRender q.num ++ '/' :: natDigits q.den

/-- Model of the `SearchOptions` record of `types/index.ts`.  `limit` and
`offset` are natural counts, `minScore` is modelled as a rational, and
`frontmatter` is carried as its `JSON.stringify` serialization. -/
structure SearchOptions where
  query : Option Str := none
  glob : Option Str := none
  regex : Option Str := none
  limit : Option Nat := none
  offset : Option Nat := none
  minScore : Option ℚ := none
  tags : Option (List Str) := none
  frontmatter : Option Str := none
deriving DecidableEq, Repr

/-- One optional `pre:payload` part of the cache key. -/
def optPart (pre : Char) (payload : Option Str) : List Str :=
  match payload with
  | none => []
  | some s => [pre :: ':' :: s]

/-- A JS string field passes `if (options.field)` only when non-empty. -/
def truthy (s : Option Str) : Option Str :=
  s.bind (fun v => if v = [] then none else some v)

/-- The parts list assembled by `SearchResultCache.generateKey`, in source
order.  String fields are included when truthy, numeric fields when defined,
`tags` (joined with commas) and `frontmatter` when present. -/
def keyParts (o : SearchOptions) : List Str :=
  optPart 'q' (truthy o.query) ++
  optPart 'g' (truthy o.glob) ++
  optPart 'r' (truthy o.regex) ++
  optPart 'l' (o.limit.map natDigits) ++
  optPart 'o' (o.offset.map natDigits) ++
  optPart 's' (o.minScore.map ratRender) ++
  optPart 't' (o.tags.map (List.intercalate [','])) ++
  optPart 'f' o.frontmatter

/-- Model of `SearchResultCache.generateKey`: the parts joined with `|`. -/
def generateKey (o : SearchOptions) : Str :=
  List.intercalate ['|'] (keyParts o)

/-- Model of `SearchResult` of `types/index.ts`. -/
structure SearchResult where
  path : Str
  score : ℝ
  matchList : List SearchMatch

/-- Model of `SearchCacheEntry`: `results` holds either a plain result list
or a compressed blob (a base64 string). -/
structure SearchCacheEntry where
  results : List SearchResult ⊕ Str
  timestamp : Int
  isCompressed : Bool
  originalSize : Nat

/-- Model of `SearchResultCacheOptions`. -/
structure CacheOptions where
  maxSize : Nat
  ttl : Int
  enableCompression : Bool
  compressionThreshold : Nat

/-- State of a `SearchResultCache` instance. -/
structure CacheState where
  memory : List (Str × SearchCacheEntry)
  persistent : Option (Rows SearchCacheEntry)
  options : CacheOptions

/-- Model of `SearchResultCache.deepCopyResults`. -/
def deepCopyResults (results : List SearchResult) : List SearchResult :=
  results.map (fun r =>
    { path := r.path, score := r.score,
      matchList := r.matchList.map (fun m =>
        { line := m.line, column := m.column, context := m.context,
          snippet := m.snippet }) })

/-- Model of `SearchResultCache.maybeDecompress`.  The zlib-inflate plus
JSON-parse pipeline is an external collaborator and is passed in as `dec`;
`dec blob = none` models the `try/catch` failure path, which the source maps
to the empty result list.  An uncompressed entry whose `results` is
nevertheless a string would be returned by the source as an ill-typed cast;
no entry written by `set` has that shape and the model maps it to `[]`. -/
def maybeDecompress (dec : Str → Option (List SearchResult))
    (e : SearchCacheEntry) : List SearchResult :=
  match e.results with
  | .inl rs => rs
  | .inr blob =>
    if e.isCompressed then
      match dec blob with
      | some rs => rs
      | none => []
    else []

/-- Model of `SearchResultCache.setInMemory` (same LRU mechanism as the
content cache). -/
def setInMemory (maxSize : Nat) (mem : List (Str × SearchCacheEntry))
    (k : Str) (e : SearchCacheEntry) : List (Str × SearchCacheEntry) :=
  let m1 := mem.filter (fun kv => kv.1 ≠ k)
  m1.drop (m1.length + 1 - maxSize) ++ [(k, e)]

/-- Model of `SearchResultCache.get`: TTL-checked memory lookup with LRU
promotion, falling back to the TTL-checked persistent store, decompressing
transparently and returning a deep copy. -/
def get (dec : Str → Option (List SearchResult)) (s : CacheState)
    (o : SearchOptions) (now : Int) :
    Option (List SearchResult) × CacheState :=
  let key := generateKey o
  match s.memory.lookup key with
  | some e =>
    if now - e.timestamp > s.options.ttl then
      (none,
        { s with
          memory := s.memory.filter (fun kv => kv.1 ≠ key),
          persistent := s.persistent.map (pdelete key) })
    else
      (some (deepCopyResults (maybeDecompress dec e)),
        { s with memory := s.memory.filter (fun kv => kv.1 ≠ key) ++ [(key, e)] })
  | none =>
    match s.persistent with
    | none => (none, s)
    | some rows =>
      match getWithTtl key s.options.ttl now rows with
      | (some e, rows') =>
        (some (deepCopyResults (maybeDecompress dec e)),
          { s with memory := setInMemory s.options.maxSize s.memory key e,
                   persistent := some rows' })
      | (none, rows') => (none, { s with persistent := some rows' })

end SearchResultCache

namespace PathTrie

/-- State of a `PathTrie` instance, flattened: `nodes` is the set of node
paths that exist in the tree of children maps (the root `[]` always exists),
`filesAt` records each `files`-set entry as a `(node path, full path)` pair,
and `allFiles` is the auxiliary full-path set.  The per-node `isDirectory`
flag is not read by any modeled operation and is omitted. -/
structure TrieState where
  nodes : List (List Str)
  filesAt : List (List Str × Str)
  allFiles : List Str
  fileCount : Int
deriving DecidableEq, Repr

/-- A freshly constructed `PathTrie`. -/
def emptyTrie : TrieState :=
  { nodes := [[]], filesAt := [], allFiles := [], fileCount := 0 }

/-- Whether the node at `q` has at least one child in the children maps. -/
def hasChild (nodes : List (List Str)) (q : List Str) : Bool :=
  nodes.any (fun r => r.length = q.length + 1 ∧ r.take q.length = q)

/-- Create a node if it is missing. -/
def insertNode (nodes : List (List Str)) (q : List Str) : List (List Str) :=
  if q ∈ nodes then nodes else nodes ++ [q]

/-- Model of `PathTrie.insert`: normalizes, refuses duplicates via the
`allFiles` set, creates one node per non-empty directory segment, then (when
the final segment is non-empty) creates the file node and records the full
path there. -/
def insert (t : TrieState) (filePath : Str) : TrieState :=
  if filePath = [] then t
  else
    let np := normalizeSlashes filePath
    if np ∈ t.allFiles then t
    else
      let segs := splitC '/' np
      let dirSegs := (segs.dropLast).filter (fun s => s ≠ [])
      let nodes1 := (List.range dirSegs.length).foldl
        (fun ns i => insertNode ns (dirSegs.take (i + 1))) t.nodes
      match segs.getLast? with
      | none => t
      | some fn =>
        if fn = [] then
          { nodes := nodes1, filesAt := t.filesAt,
            allFiles := t.allFiles ++ [np], fileCount := t.fileCount + 1 }
        else
          { nodes := insertNode nodes1 (dirSegs ++ [fn]),
            filesAt := t.filesAt ++ [(dirSegs ++ [fn], np)],
            allFiles := t.allFiles ++ [np], fileCount := t.fileCount + 1 }

/-- Whether navigation from the root along `q` succeeds (every node of the
chain exists). -/
def chainOk (nodes : List (List Str)) (q : List Str) : Bool :=
  (List.range q.length).all (fun i => q.take (i + 1) ∈ nodes)

/-- Model of `PathTrie.remove`: deletes from `allFiles`, traverses along the
non-empty segments (giving up, with `allFiles` already updated, if a chain
node is missing), removes the file record at the final node and prunes empty
nodes from leaf to root.  The leaf-to-root walk indexes its parent stack by
segment position; the model walks the chain of non-empty segments, which
agrees with the source for paths without empty segments — the only paths the
verified reachable states insert. -/
def remove (t : TrieState) (filePath : Str) : TrieState :=
  let np := normalizeSlashes filePath
  if np ∉ t.allFiles then t
  else
    let allFiles' := t.allFiles.filter (fun p => p ≠ np)
    let cleanSegs := (splitC '/' np).filter (fun s => s ≠ [])
    if ¬ chainOk t.nodes cleanSegs then
      { t with allFiles := allFiles', fileCount := t.fileCount - 1 }
    else
      let filesAt1 := t.filesAt.filter
        (fun rec => ¬ (rec.1 = cleanSegs ∧ rec.2 = np))
      let nodes' := (List.range cleanSegs.length).reverse.foldl
        (fun ns i =>
          let q := cleanSegs.take (i + 1)
          if q ∈ ns ∧ ¬ hasChild ns q ∧ filesAt1.all (fun rec => rec.1 ≠ q)
          then ns.filter (fun r => r ≠ q) else ns)
        t.nodes
      { nodes := nodes', filesAt := filesAt1, allFiles := allFiles',
        fileCount := t.fileCount - 1 }

/-- One step of `remove`'s leaf-to-root cleanup: delete the node `q` when it
exists, has no child and holds no file record. -/
def pruneStep (fa : List (List Str × Str)) (ns : List (List Str))
    (q : List Str) : List (List Str) :=
  if q ∈ ns ∧ ¬ hasChild ns q ∧ fa.all (fun r => r.1 ≠ q)
  then ns.filter (fun r => r ≠ q) else ns

/-- Model of `PathTrie.getAllFiles`. -/
def getAllFiles (t : TrieState) : List Str :=
  t.allFiles

/-- Model of `PathTrie.collectFiles`: every file recorded at or beneath the
node `q`, through existing child links (breadth-first order in the source;
the claims are stated up to set equality). -/
def collectFiles (t : TrieState) (q : List Str) : List Str :=
  (t.filesAt.filter (fun rec => q.isPrefixOf rec.1 ∧ chainOk t.nodes rec.1)).map
    (fun rec => rec.2)

/-- Model of `PathTrie.matchPrefix`. -/
def matchPrefix (t : TrieState) (pre : Str) : List Str :=
  if pre = [] then getAllFiles t
  else
    let nseg := (splitC '/' (normalizeSlashes pre)).filter (fun s => s ≠ [])
    if chainOk t.nodes nseg then collectFiles t nseg else []

/-- A glob segment with no `*`, `?` or `[` wildcard character. -/
def noWild (s : Str) : Bool :=
  ¬ s.any (fun c => c = '*' ∨ c = '?' ∨ c = '[')

/-- Model of `PathTrie.extractSimplePrefix`: the `/`-joined run of leading
wildcard-free segments. -/
def extractSimplePrefix (pattern : Str) : Str :=
  List.intercalate ['/'] ((splitC '/' pattern).takeWhile (fun s => noWild s))

/-- A compiled glob-segment token. -/
inductive GlobTok
  | lit (c : Char)
  | anyOne
  | anySeq
  | cls (neg : Bool) (ranges : List (Char × Char))
deriving DecidableEq, Repr

/-- Parse the body of a `[...]` character class: returns the ranges and the
number of characters consumed (through the closing `]`), or `none` for an
unterminated class (the `[` is then literal). -/
def parseClassAux : Str → List (Char × Char) → Option (List (Char × Char) × Nat)
  | [], _ => none
  | ']' :: _, acc => some (acc.reverse, 1)
  | a :: '-' :: b :: rest2, acc =>
    if b = ']' then
      (parseClassAux ('-' :: b :: rest2) ((a, a) :: acc)).map
        (fun pr => (pr.1, pr.2 + 1))
    else
      (parseClassAux rest2 ((a, b) :: acc)).map (fun pr => (pr.1, pr.2 + 3))
  | a :: rest, acc =>
    (parseClassAux rest ((a, a) :: acc)).map (fun pr => (pr.1, pr.2 + 1))

/-- Parse a class body with an optional leading `!` negation; the count
includes the `!`. -/
def parseCls (s : Str) : Option (Bool × List (Char × Char) × Nat) :=
  match s with
  | '!' :: s2 => (parseClassAux s2 []).map (fun pr => (true, pr.1, pr.2 + 1))
  | _ => (parseClassAux s []).map (fun pr => (false, pr.1, pr.2))

/-- Modelled from the spec: compile one glob segment of the external
`minimatch` collaborator to tokens — `*` any characters within the segment,
`?` one character, `[...]` a character class, everything else literal. -/
def compileSeg : Str → List GlobTok
  | [] => []
  | '*' :: ps => .anySeq :: compileSeg ps
  | '?' :: ps => .anyOne :: compileSeg ps
  | '[' :: ps =>
    match parseCls ps with
    | some pr => .cls pr.1 pr.2.1 :: compileSeg (ps.drop pr.2.2)
    | none => .lit '[' :: compileSeg ps
  | c :: ps => .lit c :: compileSeg ps
termination_by s => s.length
decreasing_by
  all_goals simp_arith [List.length_cons, List.length_drop]

/-- Membership in a character class. -/
def classMatch (neg : Bool) (ranges : List (Char × Char)) (c : Char) : Bool :=
  let inCls := ranges.any (fun r => r.1 ≤ c ∧ c ≤ r.2)
  if neg then ¬ inCls else inCls

/-- Matching of a compiled glob segment against one path segment. -/
def tokMatch : List GlobTok → Str → Bool
  | [], [] => true
  | [], _ :: _ => false
  | .anySeq :: ts, s =>
    tokMatch ts s ||
      (match s with
       | [] => false
       | _ :: s2 => tokMatch (.anySeq :: ts) s2)
  | .anyOne :: ts, s =>
    (match s with
     | [] => false
     | _ :: s2 => tokMatch ts s2)
  | .cls neg rs :: ts, s =>
    (match s with
     | [] => false
     | c :: s2 => classMatch neg rs c && tokMatch ts s2)
  | .lit c :: ts, s =>
    (match s with
     | [] => false
     | c2 :: s2 => (c = c2) && tokMatch ts s2)
termination_by ts s => (ts.length, s.length)

/-- Matching of one glob segment against one path segment. -/
def segMatch (p seg : Str) : Bool :=
  tokMatch (compileSeg p) seg

/-- Modelled from the spec: segment-list glob matching with `**` matching
any number (including zero) of path segments. -/
def listGlob : List Str → List Str → Bool
  | [], [] => true
  | [], _ :: _ => false
  | p :: ps, fs =>
    if p = ['*', '*'] then
      listGlob ps fs ||
        (match fs with
         | [] => false
         | _ :: fs2 => listGlob (['*', '*'] :: ps) fs2)
    else
      match fs with
      | [] => false
      | f :: fs2 => segMatch p f && listGlob ps fs2
termination_by ps fs => (ps.length, fs.length)

/-- Modelled from the spec: full glob semantics of the external `minimatch`
collaborator — `*` = any characters in one segment, `**` = any depth, `?`,
character classes; other characters are literal. -/
def globMatch (pattern f : Str) : Bool :=
  listGlob (splitC '/' pattern) (splitC '/' f)

/-- Model of `PathTrie.matchGlob`: empty patterns return every file;
otherwise the candidates from the literal prefix (or the full file set) are
filtered by full glob matching. -/
def matchGlob (t : TrieState) (pattern : Str) : List Str :=
  if pattern = [] then getAllFiles t
  else
    let sp := extractSimplePrefix pattern
    let candidates := if sp ≠ [] then matchPrefix t sp else getAllFiles t
    candidates.filter (fun f => globMatch pattern f)

/-- A well-formed vault path: after normalisation it splits into non-empty
segments only (no leading, trailing or doubled slashes). -/
def WellFormedPath (p : Str) : Prop :=
  [] ∉ splitC '/' (normalizeSlashes p)

/-- Trie states reachable through `insert` of well-formed paths and `remove`
of arbitrary paths. -/
inductive ReachableT : TrieState → Prop
  | empty : ReachableT emptyTrie
  | ins (p : Str) (h : ReachableT t) (hw : WellFormedPath p) :
      ReachableT (PathTrie.insert t p)
  | rem (p : Str) (h : ReachableT t) : ReachableT (PathTrie.remove t p)

/-- Structural invariant of reachable trie states. -/
def WfT (t : TrieState) : Prop :=
  [] ∈ t.nodes ∧
  (∀ q ∈ t.nodes, ∀ i, q.take i ∈ t.nodes) ∧
  (∀ rec ∈ t.filesAt, rec.2 ∈ t.allFiles ∧ rec.1 = splitC '/' rec.2 ∧
    rec.1 ∈ t.nodes) ∧
  (∀ p ∈ t.allFiles, normalizeSlashes p = p ∧ [] ∉ splitC '/' p ∧
    (splitC '/' p, p) ∈ t.filesAt)

end PathTrie

/-! ## Theorems -/

namespace InvertedIndex

theorem mem_pruneOpt {x : Str} {t : Finset Str} :
    x ∈ ((if t = ∅ then none else (some t : Option (Finset Str))).getD ∅) ↔
      x ∈ t := by
  by_cases h : t = ∅ <;> simp [h]

theorem invalidate_of_none {s : IndexState} {p : Str}
    (h : s.fileToWords (normalizeSlashes p) = none) : invalidate s p = s := by
  simp only [invalidate, h]

theorem invalidate_of_some {s : IndexState} {p : Str} {words : Finset Str}
    (h : s.fileToWords (normalizeSlashes p) = some words) :
    invalidate s p =
      { wordToFiles := fun w =>
          if w ∈ words then
            match s.wordToFiles w with
            | none => none
            | some files =>
              if files.erase (normalizeSlashes p) = ∅ then none
              else some (files.erase (normalizeSlashes p))
          else s.wordToFiles w,
        fileToWords := fun q =>
          if q = normalizeSlashes p then none else s.fileToWords q,
        enabled := s.enabled } := by
  simp only [invalidate, h]

theorem invalidate_enabled (s : IndexState) (p : Str) :
    (invalidate s p).enabled = s.enabled := by
  cases h : s.fileToWords (normalizeSlashes p) with
  | none => rw [invalidate_of_none h]
  | some words => rw [invalidate_of_some h]

theorem invalidate_fileToWords_self (s : IndexState) (p : Str) :
    (invalidate s p).fileToWords (normalizeSlashes p) = none := by
  cases h : s.fileToWords (normalizeSlashes p) with
  | none => rw [invalidate_of_none h]; exact h
  | some words => rw [invalidate_of_some h]; simp

theorem invalidate_wordToFiles_clears {s : IndexState} (h : Wf s) (p : Str) :
    ∀ w, normalizeSlashes p ∉ ((invalidate s p).wordToFiles w).getD ∅ := by
  intro w
  cases hf : s.fileToWords (normalizeSlashes p) with
  | none =>
    rw [invalidate_of_none hf]
    intro hmem
    have hw := (h.1 w (normalizeSlashes p)).mpr hmem
    rw [hf] at hw
    simp at hw
  | some words =>
    rw [invalidate_of_some hf]
    by_cases hw : w ∈ words
    · simp only [hw, if_pos]
      cases hwf : s.wordToFiles w with
      | none => simp
      | some files => simp [mem_pruneOpt]
    · simp only [hw, if_neg, ite_false]
      intro hmem
      have hw2 := (h.1 w (normalizeSlashes p)).mpr hmem
      rw [hf] at hw2
      simp at hw2
      exact hw hw2

theorem wf_empty : Wf emptyIndex := by
  refine ⟨?_, ?_, ?_⟩ <;> simp [emptyIndex, Wf]

theorem wf_invalidate {s : IndexState} (h : Wf s) (p : Str) :
    Wf (invalidate s p) := by
  cases hf : s.fileToWords (normalizeSlashes p) with
  | none => rw [invalidate_of_none hf]; exact h
  | some words =>
    rw [invalidate_of_some hf]
    refine ⟨?_, ?_, ?_⟩
    · intro w q
      by_cases hq : q = normalizeSlashes p
      · subst hq
        by_cases hw : w ∈ words
        · cases hwf : s.wordToFiles w with
          | none => simp [hw, hwf]
          | some files => simp [hw, hwf, mem_pruneOpt]
        · simp only [hw, if_neg, ite_false, eq_self_iff_true, ite_true,
            Option.getD_none, Finset.not_mem_empty, false_iff]
          intro hmem
          have hw2 := (h.1 w (normalizeSlashes p)).mpr hmem
          rw [hf] at hw2
          simp at hw2
          exact hw hw2
      · by_cases hw : w ∈ words
        · cases hwf : s.wordToFiles w with
          | none =>
            simp only [hq, ite_false, hw, ite_true, hwf]
            simp only [Option.getD_none, Finset.not_mem_empty, iff_false]
            intro hmem
            have hw2 := (h.1 w q).mp hmem
            rw [hwf] at hw2
            simp at hw2
          | some files =>
            simp only [hq, ite_false, hw, ite_true, hwf, mem_pruneOpt]
            rw [Finset.mem_erase]
            have := h.1 w q
            rw [hwf] at this
            simp only [Option.getD_some] at this
            simp [hq, this]
        · simp only [hq, ite_false, hw]
          exact h.1 w q
    · intro w
      by_cases hw : w ∈ words
      · simp only [hw, ite_true]
        cases hwf : s.wordToFiles w with
        | none => simp
        | some files =>
          by_cases he : files.erase (normalizeSlashes p) = ∅ <;> simp [he]
      · simp only [hw, ite_false]
        exact h.2.1 w
    · intro hen
      simp only at hen
      have := h.2.2 hen
      exfalso
      have h2 := congrFun this.2 (normalizeSlashes p)
      rw [hf] at h2
      simp at h2

theorem indexContent_eq (opts : Options) (s : IndexState) (p c : Str)
    (he : s.enabled = true) (hc : c ≠ []) :
    indexContent opts s p c =
      { wordToFiles := fun w =>
          if w ∈ extractWords opts c then
            some (insert (normalizeSlashes p)
              (((invalidate s p).wordToFiles w).getD ∅))
          else (invalidate s p).wordToFiles w,
        fileToWords := fun q =>
          if q = normalizeSlashes p then some (extractWords opts c)
          else (invalidate s p).fileToWords q,
        enabled := (invalidate s p).enabled } := by
  simp only [indexContent, he, hc]
  simp

theorem wf_indexContent (opts : Options) {s : IndexState} (h : Wf s)
    (p c : Str) : Wf (indexContent opts s p c) := by
  by_cases hg : s.enabled = true ∧ c ≠ []
  · rw [indexContent_eq opts s p c hg.1 hg.2]
    have h1 : Wf (invalidate s p) := wf_invalidate h p
    have hclear := invalidate_wordToFiles_clears h p
    have hself := invalidate_fileToWords_self s p
    refine ⟨?_, ?_, ?_⟩
    · intro w q
      by_cases hq : q = normalizeSlashes p
      · subst hq
        by_cases hw : w ∈ extractWords opts c
        · simp [hw]
        · simp only [hw, ite_false, eq_self_iff_true, ite_true,
            Option.getD_some, iff_false, false_iff]
          intro hmem
          exact hclear w hmem
      · by_cases hw : w ∈ extractWords opts c
        · simp only [hq, ite_false, hw, ite_true, Option.getD_some,
            Finset.mem_insert]
          have := h1.1 w q
          simp [hq, this]
        · simp only [hq, ite_false, hw]
          exact h1.1 w q
    · intro w
      by_cases hw : w ∈ extractWords opts c
      · simp [hw, Finset.insert_ne_empty]
      · simp only [hw, ite_false]
        exact h1.2.1 w
    · intro hen
      simp only [invalidate_enabled] at hen
      rw [hen] at hg
      simp at hg
  · have : indexContent opts s p c = s := by
      rcases not_and_or.mp hg with hne | hcc
      · simp only [indexContent]
        rw [if_pos]
        left
        simpa using hne
      · simp only [indexContent]
        rw [if_pos]
        right
        simpa using hcc
    rw [this]
    exact h

theorem wf_setEnabled {s : IndexState} (h : Wf s) (b : Bool) :
    Wf (setEnabled s b) := by
  cases b with
  | true => exact ⟨h.1, h.2.1, by simp [setEnabled]⟩
  | false => refine ⟨?_, ?_, ?_⟩ <;> simp [setEnabled]

theorem wf_clear {s : IndexState} (_h : Wf s) : Wf (clear s) := by
  refine ⟨?_, ?_, ?_⟩ <;> simp [clear]

theorem reachable_wf {opts : Options} {s : IndexState}
    (h : Reachable opts s) : Wf s := by
  induction h with
  | empty => exact wf_empty
  | index p c _ ih => exact wf_indexContent opts ih p c
  | inval p _ ih => exact wf_invalidate ih p
  | setE b _ ih => exact wf_setEnabled ih b
  | clearR _ ih => exact wf_clear ih

end InvertedIndex

namespace InvertedIndex

theorem indexContent_noop (opts : Options) {s : IndexState} {c : Str}
    (hg : ¬ (s.enabled = true ∧ c ≠ [])) (p : Str) :
    indexContent opts s p c = s := by
  rcases not_and_or.mp hg with hne | hcc
  · simp only [indexContent]
    rw [if_pos]
    left
    simpa using hne
  · simp only [indexContent]
    rw [if_pos]
    right
    simpa using hcc

theorem invalidate_indexContent (opts : Options) {s : IndexState} (h : Wf s)
    (p c : Str) (he : s.enabled = true) (hc : c ≠ []) :
    invalidate (indexContent opts s p c) p = invalidate s p := by
  have h1 : Wf (invalidate s p) := wf_invalidate h p
  have hclear := invalidate_wordToFiles_clears h p
  have hIC := indexContent_eq opts s p c he hc
  have hfw : (indexContent opts s p c).fileToWords (normalizeSlashes p) =
      some (extractWords opts c) := by rw [hIC]; simp
  rw [invalidate_of_some hfw]
  apply IndexState.ext
  · funext w
    by_cases hw : w ∈ extractWords opts c
    · rw [hIC]
      simp only [hw, ite_true]
      have hnp : normalizeSlashes p ∉
          ((invalidate s p).wordToFiles w).getD ∅ := hclear w
      cases h2 : (invalidate s p).wordToFiles w with
      | none =>
        simp only [Option.getD_none]
        rw [Finset.erase_insert (Finset.not_mem_empty _)]
        simp
      | some fs =>
        rw [h2] at hnp
        simp only [Option.getD_some] at hnp
        simp only [Option.getD_some]
        rw [Finset.erase_insert hnp]
        have hne : fs ≠ ∅ := by
          intro hcontra
          exact h1.2.1 w (by rw [h2, hcontra])
        simp [hne]
    · rw [hIC]
      simp [hw]
  · funext q
    by_cases hq : q = normalizeSlashes p
    · subst hq
      simp only [ite_true, eq_self_iff_true]
      rw [invalidate_fileToWords_self]
    · simp only [hq, ite_false]
      rw [hIC]
      simp [hq]
  · rw [hIC]

/-- Claim C6: in every InvertedIndex state reachable from the empty index by
any sequence of indexContent, invalidate, setEnabled and clear operations,
the two maps are mutual inverses: a word `w` is a member of
`fileToWords[p]` if and only if the path `p` is a member of
`wordToFiles[w]`. -/
theorem invertedIndex_mutual_inverse (opts : Options) (s : IndexState)
    (h : Reachable opts s) (w p : Str) :
    w ∈ (s.fileToWords p).getD ∅ ↔ p ∈ (s.wordToFiles w).getD ∅ :=
  (reachable_wf h).1 w p

/-- Witness for C6 at a concrete reachable state. -/
theorem invertedIndex_mutual_inverse_witness :
    "hello".toList ∈ (((indexContent defaultOptions emptyIndex "a.md".toList
        "hello world".toList).fileToWords "a.md".toList).getD ∅) ↔
      "a.md".toList ∈ (((indexContent defaultOptions emptyIndex "a.md".toList
        "hello world".toList).wordToFiles "hello".toList).getD ∅) :=
  invertedIndex_mutual_inverse defaultOptions _
    (Reachable.index "a.md".toList "hello world".toList Reachable.empty)
    "hello".toList "a.md".toList

/-- Claim C7 (amended): for every reachable state, calling
`indexContent(p, c)` twice in a row leaves exactly the same
`wordToFiles`/`fileToWords` state as calling it once; and whenever the call
actually indexes (the index is enabled and the content non-empty) it first
removes every pre-existing mapping for `p`, so afterwards `p`'s word set is
exactly the words of `c` and `p` appears in no other word's file set. -/
theorem indexContent_idempotent_and_cleans (opts : Options) (s : IndexState)
    (h : Reachable opts s) (p c : Str) :
    indexContent opts (indexContent opts s p c) p c =
      indexContent opts s p c ∧
    (s.enabled = true → c ≠ [] →
      ((indexContent opts s p c).fileToWords (normalizeSlashes p) =
        some (extractWords opts c)) ∧
      ∀ w, normalizeSlashes p ∈
          (((indexContent opts s p c).wordToFiles w).getD ∅) →
        w ∈ extractWords opts c) := by
  have hwf := reachable_wf h
  constructor
  · by_cases hg : s.enabled = true ∧ c ≠ []
    · have hIC := indexContent_eq opts s p c hg.1 hg.2
      have hA := invalidate_indexContent opts hwf p c hg.1 hg.2
      have he2 : (indexContent opts s p c).enabled = true := by
        rw [hIC]
        simp only [invalidate_enabled]
        exact hg.1
      rw [indexContent_eq opts (indexContent opts s p c) p c he2 hg.2, hA,
        hIC]
    · have hid := indexContent_noop opts hg p
      rw [hid, hid]
  · intro he hc
    have hIC := indexContent_eq opts s p c he hc
    constructor
    · rw [hIC]
      simp
    · intro w hmem
      by_cases hw : w ∈ extractWords opts c
      · exact hw
      · exfalso
        rw [hIC] at hmem
        simp only [hw, ite_false] at hmem
        exact invalidate_wordToFiles_clears hwf p w hmem

/-- Witness for C7 at a concrete reachable state and input. -/
theorem indexContent_idempotent_and_cleans_witness :
    indexContent defaultOptions
        (indexContent defaultOptions emptyIndex "a.md".toList
          "hello world".toList) "a.md".toList "hello world".toList =
      indexContent defaultOptions emptyIndex "a.md".toList
        "hello world".toList ∧
    (emptyIndex.enabled = true → "hello world".toList ≠ [] →
      ((indexContent defaultOptions emptyIndex "a.md".toList
          "hello world".toList).fileToWords
        (normalizeSlashes "a.md".toList) =
        some (extractWords defaultOptions "hello world".toList)) ∧
      ∀ w, normalizeSlashes "a.md".toList ∈
          (((indexContent defaultOptions emptyIndex "a.md".toList
            "hello world".toList).wordToFiles w).getD ∅) →
        w ∈ extractWords defaultOptions "hello world".toList) :=
  indexContent_idempotent_and_cleans defaultOptions emptyIndex
    Reachable.empty "a.md".toList "hello world".toList

/-- Claim C7 counterexample: `indexContent(p, c)` with empty content `c` is
a complete no-op, so it does not remove the pre-existing mappings for `p`:
after re-indexing `p.md` with new (empty) content, the mapping derived from
`p.md`'s previous content `"hello world"` is still present. -/
theorem indexContent_empty_content_keeps_mappings :
    indexContent defaultOptions
        (indexContent defaultOptions emptyIndex "p.md".toList
          "hello world".toList) "p.md".toList [] =
      indexContent defaultOptions emptyIndex "p.md".toList
        "hello world".toList ∧
    "p.md".toList ∈
      (((indexContent defaultOptions
          (indexContent defaultOptions emptyIndex "p.md".toList
            "hello world".toList) "p.md".toList []).wordToFiles
        "hello".toList).getD ∅) := by
  constructor
  · exact indexContent_noop defaultOptions (by simp) "p.md".toList
  · rw [indexContent_noop defaultOptions (by simp) "p.md".toList]
    rw [indexContent_eq defaultOptions emptyIndex "p.md".toList
      "hello world".toList rfl (by simp)]
    simp only
    rw [if_pos (by decide)]
    simp only [Option.getD_some, Finset.mem_insert]
    left
    decide

end InvertedIndex

theorem lookup_eq_none_of_keys_ne {β : Type} (l : List (Str × β)) (k : Str)
    (h : ∀ kv ∈ l, kv.1 ≠ k) : l.lookup k = none := by
  induction l with
  | nil => rfl
  | cons kv rest ih =>
    obtain ⟨k1, v1⟩ := kv
    have hk : k1 ≠ k := h (k1, v1) (List.mem_cons_self _ _)
    have hbeq : (k == k1) = false :=
      beq_eq_false_iff_ne.mpr (fun hc => hk hc.symm)
    simp only [List.lookup, hbeq]
    exact ih (fun kv2 hm => h kv2 (List.mem_cons_of_mem _ hm))

theorem lookup_filter_ne {β : Type} (l : List (Str × β)) (k : Str) :
    (l.filter (fun kv => kv.1 ≠ k)).lookup k = none := by
  apply lookup_eq_none_of_keys_ne
  intro kv hm
  have := List.of_mem_filter hm
  simpa using this

theorem lookup_append_right {β : Type} (l1 l2 : List (Str × β)) (k : Str)
    (h : ∀ kv ∈ l1, kv.1 ≠ k) : (l1 ++ l2).lookup k = l2.lookup k := by
  induction l1 with
  | nil => rfl
  | cons kv rest ih =>
    obtain ⟨k1, v1⟩ := kv
    have hk : k1 ≠ k := h (k1, v1) (List.mem_cons_self _ _)
    have hbeq : (k == k1) = false :=
      beq_eq_false_iff_ne.mpr (fun hc => hk hc.symm)
    simp only [List.cons_append, List.lookup, hbeq]
    exact ih (fun kv2 hm => h kv2 (List.mem_cons_of_mem _ hm))

namespace ContentCache

theorem lookup_setInMemory_self (n : Nat) (mem : List (Str × Entry))
    (np : Str) (e : Entry) : (setInMemory n mem np e).lookup np = some e := by
  unfold setInMemory
  rw [lookup_append_right]
  · simp [List.lookup]
  · intro kv hm
    have hsub : kv ∈ mem.filter (fun kv => kv.1 ≠ np) :=
      List.drop_subset _ _ hm
    simpa using List.of_mem_filter hsub

/-- Claim C4: for every cache state, path, content and distinct mtimes
`m1 ≠ m2`, after `set(path, content, m1)` the call `get(path, m2)` returns
absent and a subsequent `has(path)` is false: the stale entry is deleted
from both the in-memory map and the persistent store before `get` returns
(the mismatch is absorbed, never surfaced — `get` is total and simply
returns `none`).  `1 ≤ maxSize` reflects that the JS eviction loop does not
terminate for a zero-capacity cache. -/
theorem contentCache_stale_mtime (s : CacheState) (p content : Str)
    (m1 m2 now : Int) (hm : m1 ≠ m2) (_hsize : 1 ≤ s.maxSize) :
    (get (set s p content m1 now) p m2).1 = none ∧
    has (get (set s p content m1 now) p m2).2 p = false := by
  set np := normalizeSlashes p with hnp
  set e : Entry :=
    { content := content, mtime := m1,
      wordCountF := some (computeWordCount content),
      lineCountF := some (computeLineCount content),
      inlineTags := some (extractInlineTags content) } with he
  have hmem : (set s p content m1 now).memory.lookup np = some e := by
    simp only [set]
    exact lookup_setInMemory_self _ _ _ _
  have hget : get (set s p content m1 now) p m2 =
      (none,
        { set s p content m1 now with
          memory := (set s p content m1 now).memory.filter
            (fun kv => kv.1 ≠ np),
          persistent := (set s p content m1 now).persistent.map
            (PersistentCache.pdelete np) }) := by
    simp only [get, ← hnp, hmem]
    rw [if_pos]
    simpa using hm
  refine ⟨by rw [hget], ?_⟩
  rw [hget]
  simp only [has, ← hnp]
  rw [lookup_filter_ne]
  simp only [Option.isSome_none, Bool.false_or]
  cases hp : s.persistent with
  | none => simp [set, hp]
  | some rows =>
    simp only [set, hp, Option.map_some']
    simp only [PersistentCache.pdelete, PersistentCache.phas]
    rw [lookup_filter_ne]
    simp

/-- Witness for C4 at a concrete state and input. -/
theorem contentCache_stale_mtime_witness :
    (get (set ⟨[], some [], 100⟩ "a.md".toList "hi".toList 0 5)
        "a.md".toList 1).1 = none ∧
    has (get (set ⟨[], some [], 100⟩ "a.md".toList "hi".toList 0 5)
        "a.md".toList 1).2 "a.md".toList = false :=
  contentCache_stale_mtime ⟨[], some [], 100⟩ "a.md".toList "hi".toList
    0 1 5 (by decide) (by decide)

end ContentCache

namespace FileWatcher

/-- Claim C10: for every raw event of kind add, change or unlink whose path
does not end in `.md`, `handleChange` leaves the watcher state unchanged —
no pending change is recorded, so no invalidation callback is ever delivered
for that path (`processPendingChanges` only delivers pending entries).  Only
the directory events addDir/unlinkDir bypass the markdown filter: for them
the event is coalesced into the pending map as usual. -/
theorem watcher_md_filter (s : WatcherState) (k : EventType) (p : Str)
    (hk : k = EventType.add ∨ k = EventType.change ∨ k = EventType.unlink)
    (hp : endsWithMd p = false) :
    handleChange s k p = s ∧
    ∀ k2, k2 = EventType.addDir ∨ k2 = EventType.unlinkDir →
      (handleChange s k2 p).pendingChanges =
        assocSet (relativize s.vaultPath p)
          (coalesceEventType
            (s.pendingChanges.lookup (relativize s.vaultPath p)) k2)
          s.pendingChanges := by
  constructor
  · simp only [handleChange]
    rw [if_pos]
    rcases hk with h | h | h <;> subst h <;>
      exact ⟨by decide, by decide, by simp [hp]⟩
  · intro k2 hk2
    simp only [handleChange]
    rw [if_neg]
    rcases hk2 with h | h <;> subst h <;> simp

/-- Witness for C10 at a concrete state, event and path. -/
theorem watcher_md_filter_witness :
    handleChange ⟨"v".toList, []⟩ EventType.add "a.txt".toList =
      (⟨"v".toList, []⟩ : WatcherState) ∧
    ∀ k2, k2 = EventType.addDir ∨ k2 = EventType.unlinkDir →
      (handleChange ⟨"v".toList, []⟩ k2 "a.txt".toList).pendingChanges =
        assocSet (relativize "v".toList "a.txt".toList)
          (coalesceEventType
            (List.lookup (relativize "v".toList "a.txt".toList)
              ([] : List (Str × EventType))) k2)
          ([] : List (Str × EventType)) :=
  watcher_md_filter ⟨"v".toList, []⟩ EventType.add "a.txt".toList
    (Or.inl rfl) (by decide)

/-- Claim C8 counterexample: for the non-markdown path `a.txt`, sending
`add` then `change` then `unlink` within one debounce window delivers no
callback at all when the timer fires — not exactly one `unlink` callback as
the claim states for every path. -/
theorem watcher_txt_sequence_no_callback :
    processPendingChanges
        (handleChange
          (handleChange
            (handleChange ⟨[], []⟩ EventType.add "a.txt".toList)
            EventType.change "a.txt".toList)
          EventType.unlink "a.txt".toList) =
      (([] : List (EventType × Str)), (⟨[], []⟩ : WatcherState)) := by
  decide

/-- Claim C8 (amended): raw events within one debounce window are coalesced
into at most one pending event per path (the pending map keys stay
duplicate-free), by exactly the claimed rule table; and for every markdown
path (ending `.md` — other file paths are dropped by the markdown filter,
see the C10 theorem), sending `add(p)`, `change(p)`, `unlink(p)` in one
window delivers exactly one callback for `p`, with kind `unlink`, when the
debounce timer fires. -/
theorem watcher_coalescing_spec (v p : Str) (s : WatcherState)
    (k : EventType) (q : Str)
    (hnd : (s.pendingChanges.map Prod.fst).Nodup)
    (hmd : endsWithMd p = true) :
    (((handleChange s k q).pendingChanges.map Prod.fst).Nodup) ∧
    (∀ inc, coalesceEventType none inc = inc) ∧
    coalesceEventType (some EventType.add) EventType.change = EventType.add ∧
    (∀ ex, coalesceEventType (some ex) EventType.unlink = EventType.unlink) ∧
    (∀ ex, coalesceEventType (some ex) EventType.unlinkDir =
      EventType.unlinkDir) ∧
    coalesceEventType (some EventType.unlink) EventType.add =
      EventType.change ∧
    (∀ ex inc, ¬ (ex = EventType.add ∧ inc = EventType.change) →
      inc ≠ EventType.unlink → inc ≠ EventType.unlinkDir →
      ¬ (ex = EventType.unlink ∧ inc = EventType.add) →
      coalesceEventType (some ex) inc = inc) ∧
    processPendingChanges
        (handleChange
          (handleChange
            (handleChange ⟨v, []⟩ EventType.add p)
            EventType.change p)
          EventType.unlink p) =
      ([(EventType.unlink, relativize v p)], (⟨v, []⟩ : WatcherState)) := by
  refine ⟨?_, ?_, rfl, ?_, ?_, rfl, ?_, ?_⟩
  · simp only [handleChange]
    split
    · exact hnd
    · simp only [assocSet]
      split
      · rename_i hsome
        have : ((s.pendingChanges.map
            (fun kv => if kv.1 = relativize s.vaultPath q
              then (relativize s.vaultPath q,
                coalesceEventType
                  (s.pendingChanges.lookup (relativize s.vaultPath q)) k)
              else kv)).map Prod.fst) = s.pendingChanges.map Prod.fst := by
          rw [List.map_map]
          apply List.map_congr_left
          intro kv _
          by_cases hkv : kv.1 = relativize s.vaultPath q <;>
            simp [hkv, Function.comp]
        rw [this]
        exact hnd
      · rename_i hnone
        rw [List.map_append]
        simp only [List.map_cons, List.map_nil]
        rw [List.nodup_append]
        refine ⟨hnd, by simp, ?_⟩
        intro a ha
        simp only [List.mem_singleton]
        intro hb
        subst hb
        simp only [List.mem_map] at ha
        obtain ⟨kv, hkv, hfst⟩ := ha
        rw [Option.not_isSome_iff_eq_none, List.lookup_eq_none_iff] at hnone
        have h2 := hnone kv hkv
        simp only [bne_iff_ne, ne_eq] at h2
        exact h2 hfst.symm
  · intro inc
    rfl
  · intro ex
    cases ex <;> rfl
  · intro ex
    cases ex <;> rfl
  · intro ex inc h1 h2 h3 h4
    revert h1 h2 h3 h4
    cases ex <;> cases inc <;> decide
  · have hcond : ∀ k : EventType,
        ¬ (k ≠ EventType.addDir ∧ k ≠ EventType.unlinkDir ∧
          ¬ endsWithMd p = true) := by
      intro k
      simp [hmd]
    simp only [handleChange, if_neg (hcond _)]
    simp only [List.lookup, assocSet]
    simp [processPendingChanges, coalesceEventType]

end FileWatcher

namespace FileWatcher

/-- Witness for C8 at concrete vault, paths, state and event. -/
theorem watcher_coalescing_spec_witness :
    (((handleChange ⟨"v".toList, []⟩ EventType.add
        "x.md".toList).pendingChanges.map Prod.fst).Nodup) ∧
    (∀ inc, coalesceEventType none inc = inc) ∧
    coalesceEventType (some EventType.add) EventType.change =
      EventType.add ∧
    (∀ ex, coalesceEventType (some ex) EventType.unlink =
      EventType.unlink) ∧
    (∀ ex, coalesceEventType (some ex) EventType.unlinkDir =
      EventType.unlinkDir) ∧
    coalesceEventType (some EventType.unlink) EventType.add =
      EventType.change ∧
    (∀ ex inc, ¬ (ex = EventType.add ∧ inc = EventType.change) →
      inc ≠ EventType.unlink → inc ≠ EventType.unlinkDir →
      ¬ (ex = EventType.unlink ∧ inc = EventType.add) →
      coalesceEventType (some ex) inc = inc) ∧
    processPendingChanges
        (handleChange
          (handleChange
            (handleChange ⟨"v".toList, []⟩ EventType.add "a.md".toList)
            EventType.change "a.md".toList)
          EventType.unlink "a.md".toList) =
      ([(EventType.unlink, relativize "v".toList "a.md".toList)],
        (⟨"v".toList, []⟩ : WatcherState)) :=
  watcher_coalescing_spec "v".toList "a.md".toList ⟨"v".toList, []⟩
    EventType.add "x.md".toList (by decide) (by decide)

end FileWatcher


theorem lookup_cons_self {β : Type} (k : Str) (v : β) (l : List (Str × β)) :
    ((k, v) :: l).lookup k = some v := by
  simp only [List.lookup, beq_self_eq_true]

theorem lookup_cons_ne2 {β : Type} {g k : Str} (h : g ≠ k) (v : β)
    (l : List (Str × β)) : ((k, v) :: l).lookup g = l.lookup g := by
  have hbeq : (g == k) = false := beq_eq_false_iff_ne.mpr h
  simp only [List.lookup, hbeq]

theorem lookup_filter_ne_key {β : Type} (mem : List (Str × β)) (nf g : Str) :
    (mem.filter (fun kv => kv.1 ≠ nf)).lookup g =
      if g = nf then none else mem.lookup g := by
  induction mem with
  | nil =>
    rw [List.filter_nil]
    by_cases h : g = nf
    · rw [if_pos h]; rfl
    · rw [if_neg h]
  | cons kv rest ih =>
    obtain ⟨k1, v1⟩ := kv
    by_cases h1 : k1 = nf
    · rw [List.filter_cons_of_neg (by simp [h1])]
      rw [ih]
      by_cases hg : g = nf
      · rw [if_pos hg, if_pos hg]
      · rw [if_neg hg, if_neg hg,
          lookup_cons_ne2 (fun hc => hg (h1 ▸ hc)) v1 rest]
  
    · rw [List.filter_cons_of_pos (by simp [h1])]
      by_cases hg : g = k1
      · subst hg
        rw [if_neg h1, lookup_cons_self, lookup_cons_self]
      · rw [lookup_cons_ne2 hg, ih]
        by_cases h2 : g = nf
        · rw [if_pos h2, if_pos h2]
        · rw [if_neg h2, if_neg h2, lookup_cons_ne2 hg]

theorem lookup_isSome_iff_mem_keys {β : Type} (l : List (Str × β)) (g : Str) :
    (l.lookup g).isSome = true ↔ g ∈ l.map Prod.fst := by
  induction l with
  | nil =>
    rw [show List.lookup g ([] : List (Str × β)) = none from rfl,
      List.map_nil, Option.isSome_none]
    exact iff_of_false Bool.false_ne_true (List.not_mem_nil g)
  | cons kv rest ih =>
    obtain ⟨k1, v1⟩ := kv
    by_cases hg : g = k1
    · subst hg
      rw [lookup_cons_self, List.map_cons]
      exact iff_of_true rfl (List.mem_cons_self _ _)
    · rw [lookup_cons_ne2 hg, List.map_cons, List.mem_cons, ih]
      exact (or_iff_right hg).symm

namespace FileListCache

open PersistentCache

theorem lookup_filter2_rel {β : Type} (mem : List (Str × β)) (nf g : Str) :
    ((mem.filter (fun kv => kv.1 ≠ nf)).filter
        (fun kv => ¬ isRelatedFolder kv.1 nf)).lookup g =
      if g = nf ∨ isRelatedFolder g nf = true then none
      else mem.lookup g := by
  induction mem with
  | nil =>
    rw [List.filter_nil, List.filter_nil]
    by_cases h : g = nf ∨ isRelatedFolder g nf = true
    · rw [if_pos h]; rfl
    · rw [if_neg h]
  | cons kv rest ih =>
    obtain ⟨k1, v1⟩ := kv
    by_cases h1 : k1 = nf
    · rw [List.filter_cons_of_neg (by simp [h1])]
      rw [ih]
      by_cases hg : g = nf ∨ isRelatedFolder g nf = true
      · rw [if_pos hg, if_pos hg]
      · rw [if_neg hg, if_neg hg]
        have hgk : g ≠ k1 := fun hc => hg (Or.inl (h1 ▸ hc))
        rw [lookup_cons_ne2 hgk]
    · rw [List.filter_cons_of_pos (by simp [h1])]
      by_cases h2 : isRelatedFolder k1 nf = true
      · rw [List.filter_cons_of_neg (by simp [h2])]
        rw [ih]
        by_cases hg : g = nf ∨ isRelatedFolder g nf = true
        · rw [if_pos hg, if_pos hg]
        · rw [if_neg hg, if_neg hg]
          have hgk : g ≠ k1 := fun hc => hg (Or.inr (hc ▸ h2))
          rw [lookup_cons_ne2 hgk]
      · rw [List.filter_cons_of_pos (by simp [h2])]
        by_cases hg : g = k1
        · subst hg
          have hng : ¬ (g = nf ∨ isRelatedFolder g nf = true) := by
            rintro (hc | hc)
            · exact h1 hc
            · exact h2 hc
          rw [if_neg hng, lookup_cons_self, lookup_cons_self]
        · rw [lookup_cons_ne2 hg, ih]
          by_cases hq : g = nf ∨ isRelatedFolder g nf = true
          · rw [if_pos hq, if_pos hq]
          · rw [if_neg hq, if_neg hq, lookup_cons_ne2 hg]

theorem phas_pdelete {β : Type} (k g : Str) (rows : Rows β) :
    phas g (pdelete k rows) = true ↔ g ≠ k ∧ phas g rows = true := by
  simp only [phas, pdelete]
  rw [lookup_filter_ne_key]
  by_cases hg : g = k
  · subst hg
    rw [if_pos rfl, Option.isSome_none]
    exact iff_of_false Bool.false_ne_true (fun h => h.1 rfl)
  · rw [if_neg hg]
    exact (and_iff_right hg).symm

theorem foldl_option_map {β : Type} (cond : Str → Bool) (d : Str → β → β)
    (ks : List Str) (r : β) :
    ks.foldl (fun (p : Option β) g => if cond g then p.map (d g) else p)
        (some r) =
      some (ks.foldl (fun r g => if cond g then d g r else r) r) := by
  induction ks generalizing r with
  | nil => rfl
  | cons g ks ih =>
    by_cases hc : cond g <;> simp only [List.foldl_cons, hc, if_pos, if_neg,
      ite_true, ite_false, Option.map_some'] <;> exact ih _

theorem phas_foldl_delete (nf : Str) (ks : List Str) (rows : Rows Entry)
    (g : Str) :
    phas g (ks.foldl
        (fun r gg => if isRelatedFolder gg nf then pdelete gg r else r)
        rows) = true ↔
      phas g rows = true ∧ ¬ (g ∈ ks ∧ isRelatedFolder g nf = true) := by
  induction ks generalizing rows with
  | nil =>
    rw [List.foldl_nil]
    exact (and_iff_left (fun hc => (List.not_mem_nil g) hc.1)).symm
  | cons gg ks ih =>
    simp only [List.foldl_cons]
    by_cases hr : isRelatedFolder gg nf = true
    · rw [if_pos hr, ih, phas_pdelete]
      by_cases hg : g = gg
      · subst hg
        constructor
        · rintro ⟨⟨hne, _⟩, _⟩
          exact absurd rfl hne
        · rintro ⟨_, hnk⟩
          exact absurd ⟨List.mem_cons_self _ _, hr⟩ hnk
      · constructor
        · rintro ⟨⟨_, hp⟩, hnk⟩
          refine ⟨hp, ?_⟩
          rintro ⟨hgm, hrel⟩
          rcases List.mem_cons.mp hgm with h | h
          · exact hg h
          · exact hnk ⟨h, hrel⟩
        · rintro ⟨hp, hnk⟩
          exact ⟨⟨hg, hp⟩, fun hc => hnk ⟨List.mem_cons_of_mem _ hc.1, hc.2⟩⟩
    · rw [if_neg hr, ih]
      constructor
      · rintro ⟨hp, hnk⟩
        refine ⟨hp, ?_⟩
        rintro ⟨hgm, hrel⟩
        rcases List.mem_cons.mp hgm with h | h
        · subst h
          exact hr hrel
        · exact hnk ⟨h, hrel⟩
      · rintro ⟨hp, hnk⟩
        exact ⟨hp, fun hc => hnk ⟨List.mem_cons_of_mem _ hc.1, hc.2⟩⟩

/-- Claim C5 (amended): `invalidate(f)` removes from the in-memory cache the
folder `f` itself and every in-memory folder related to it
(ancestor/descendant by the `/`-prefix test, with the empty-string root
related to everything); but the related-folder sweep of the persistent store
is driven by the in-memory key set only: a persistent row is removed exactly
when it is the normalized folder itself, or its key is currently cached in
memory and related to it.  A related row present only in the persistent
store survives. -/
theorem fileListCache_invalidate_characterization (s : CacheState) (f : Str)
    (rows : Rows Entry) (hp : s.persistent = some rows) (g : Str) :
    ((invalidateFolder s f).memory.lookup g =
      if g = normalizeFolder f ∨ isRelatedFolder g (normalizeFolder f) = true
      then none else s.memory.lookup g) ∧
    ∃ rows2, (invalidateFolder s f).persistent = some rows2 ∧
      (phas g rows2 = true ↔
        phas g rows = true ∧ g ≠ normalizeFolder f ∧
        ¬ ((s.memory.lookup g).isSome = true ∧
           isRelatedFolder g (normalizeFolder f) = true)) := by
  constructor
  · simp only [invalidateFolder]
    exact lookup_filter2_rel s.memory (normalizeFolder f) g
  · simp only [invalidateFolder, hp, Option.map_some']
    rw [foldl_option_map]
    refine ⟨_, rfl, ?_⟩
    rw [phas_foldl_delete, phas_pdelete]
    have hks : ∀ x : Str,
        x ∈ (s.memory.filter
          (fun kv => kv.1 ≠ normalizeFolder f)).map Prod.fst ↔
        (s.memory.lookup x).isSome = true ∧ x ≠ normalizeFolder f := by
      intro x
      rw [← lookup_isSome_iff_mem_keys, lookup_filter_ne_key]
      by_cases hx : x = normalizeFolder f
      · subst hx
        rw [if_pos rfl, Option.isSome_none]
        exact iff_of_false Bool.false_ne_true (fun h => h.2 rfl)
      · rw [if_neg hx]
        exact (and_iff_left hx).symm
    constructor
    · rintro ⟨⟨hne, hp2⟩, hnk⟩
      refine ⟨hp2, hne, ?_⟩
      rintro ⟨hmem, hrel⟩
      exact hnk ⟨(hks g).mpr ⟨hmem, hne⟩, hrel⟩
    · rintro ⟨hp2, hne, hnk⟩
      refine ⟨⟨hne, hp2⟩, ?_⟩
      rintro ⟨hmem, hrel⟩
      exact hnk ⟨((hks g).mp hmem).1, hrel⟩

/-- Witness for C5 at a concrete state (one folder set, then invalidated). -/
theorem fileListCache_invalidate_characterization_witness :
    (((invalidateFolder
        (set (fresh (some []) 60000) "a".toList ["x.md".toList] 0)
        "a/b".toList).memory.lookup "a".toList) =
      (if "a".toList = normalizeFolder "a/b".toList ∨
          isRelatedFolder "a".toList (normalizeFolder "a/b".toList) = true
       then none
       else (set (fresh (some []) 60000) "a".toList ["x.md".toList]
          0).memory.lookup "a".toList)) ∧
    ∃ rows2,
      (invalidateFolder
        (set (fresh (some []) 60000) "a".toList ["x.md".toList] 0)
        "a/b".toList).persistent = some rows2 ∧
      (phas "a".toList rows2 = true ↔
        phas "a".toList
          [("a".toList,
            (⟨⟨["x.md".toList], 0⟩, 0, none⟩ : PRow Entry))] = true ∧
        "a".toList ≠ normalizeFolder "a/b".toList ∧
        ¬ (((set (fresh (some []) 60000) "a".toList ["x.md".toList]
              0).memory.lookup "a".toList).isSome = true ∧
           isRelatedFolder "a".toList (normalizeFolder "a/b".toList) =
             true)) :=
  fileListCache_invalidate_characterization
    (set (fresh (some []) 60000) "a".toList ["x.md".toList] 0)
    "a/b".toList
    [("a".toList, (⟨⟨["x.md".toList], 0⟩, 0, none⟩ : PRow Entry))]
    (by decide) "a".toList

/-- Claim C5 counterexample: after a restart (fresh instance, same
persistent store) the persistent store holds folder `a` while memory is
empty; `invalidate("a/b")` leaves the related ancestor row `a` in the
persistent store, so the claim that every related cached entry is removed
from both stores fails. -/
theorem fileListCache_invalidate_misses_persistent_only :
    isRelatedFolder "a".toList (normalizeFolder "a/b".toList) = true ∧
    phas "a".toList
      ((invalidateFolder
          (fresh
            (set (fresh (some []) 60000) "a".toList ["x.md".toList]
              0).persistent 60000)
          "a/b".toList).persistent.getD []) = true := by
  decide

end FileListCache

namespace SearchResultCache

/-- Claim C3 (code bug): a cached entry flagged `isCompressed` whose blob
fails to decompress-and-parse (`dec` returns `none`, the `try/catch` path)
is NOT treated as a cache miss: `get` returns `some []` — an empty result
list indistinguishable from a successful hit with zero results — and never
the absent value `null` that a never-stored key yields, contradicting the
spec and the repository's own docs (`search-compression.md`: decompression
failure returns null and the corrupted entry is invalidated). -/
theorem searchCache_corrupted_entry_returns_empty_hit :
    (get (fun _ => none)
        { memory := [(generateKey { query := some "hello".toList },
            ⟨Sum.inr "corrupt-blob".toList, 0, true, 0⟩)],
          persistent := none,
          options := ⟨50, 30000, false, 100000⟩ }
        { query := some "hello".toList } 0).1 = some [] ∧
    (get (fun _ => none)
        { memory := [], persistent := none,
          options := ⟨50, 30000, false, 100000⟩ }
        { query := some "hello".toList } 0).1 = none := by
  constructor <;> rfl

end SearchResultCache

namespace Scorer

theorem tf_eq (c q : Str) (hc : c ≠ []) (hq : q ≠ []) :
    calculateTermFrequency c q =
      min 1 (Real.log (1 + 100 *
          ((countOccurrences (lowerStr c) (lowerStr q) : ℝ) /
            (wordCount c : ℝ))) /
        Real.log 101) := by
  unfold calculateTermFrequency
  rw [if_neg (by simp [hc, hq])]
  by_cases hw : wordCount c = 0
  · rw [if_pos hw, hw]
    norm_num
  · rw [if_neg hw]
    congr 1
    rw [mul_comm]
    norm_num

theorem pos_eq (m : List SMatch) (tl : Nat) (hm : m ≠ []) (htl : tl ≠ 0) :
    calculatePositionBonus m tl =
      Real.exp (-3 * ((firstLine m : ℝ) - 1) / (tl : ℝ)) := by
  unfold calculatePositionBonus
  rw [if_neg (by simp [hm, htl])]
  congr 1
  ring

theorem den_eq (m : List SMatch) (tl : Nat) (hm : m ≠ []) (htl : tl ≠ 0) :
    calculateDensityBonus m tl =
      min 1 (Real.log (1 + 100 * (m.length : ℝ) / (tl : ℝ)) /
        Real.log 51) := by
  unfold calculateDensityBonus
  rw [if_neg (by simp [hm, htl])]
  congr 1
  rw [show ((m.length : ℝ) / (tl : ℝ)) * 100 = 100 * (m.length : ℝ) / (tl : ℝ)
    from by ring]
  norm_num

/-- Claim C1: for every non-empty match list, non-empty content and
non-empty query, `calculateScore` (with the default weights) returns
`0.4·TF + 0.3·Position + 0.3·Density` clamped to `[0, 1]`, with
`TF = min(1, ln(1 + 100·rawTf) / ln 101)` where `rawTf` is the number of
non-overlapping case-insensitive literal occurrences of the query, each
found occurrence advancing the scan past itself, divided by the
whitespace-delimited word count (a zero word count makes `rawTf = 0` under
the division convention, matching the source's explicit guard);
`Position = exp(-3·(firstMatchLine - 1) / totalLines)` with the smallest
line number among the matches and `totalLines` the number of
newline-delimited lines; `Density = min(1, ln(1 + 100·matchCount /
totalLines) / ln 51)`; and `calculateScore` returns exactly 0 when the
match list, the content or the query is empty. -/
theorem scorer_calculateScore_spec (m : List SMatch) (c q : Str) :
    (m ≠ [] → c ≠ [] → q ≠ [] →
      calculateScore defaultWeights m c q =
        min 1 (max 0
          (0.4 * min 1 (Real.log (1 + 100 *
              ((countOccurrences (lowerStr c) (lowerStr q) : ℝ) /
                (wordCount c : ℝ))) / Real.log 101) +
           0.3 * Real.exp (-3 * ((firstLine m : ℝ) - 1) /
              (lineCount c : ℝ)) +
           0.3 * min 1 (Real.log (1 + 100 * (m.length : ℝ) /
              (lineCount c : ℝ)) / Real.log 51)))) ∧
    ((m = [] ∨ c = [] ∨ q = []) →
      calculateScore defaultWeights m c q = 0) := by
  constructor
  · intro hm hc hq
    have htl : lineCount c ≠ 0 := by
      unfold lineCount
      omega
    unfold calculateScore
    rw [if_neg (by simp [hm, hc, hq])]
    rw [tf_eq c q hc hq]
    simp only [pos_eq m (lineCount c) hm htl, den_eq m (lineCount c) hm htl]
    unfold defaultWeights
    ring_nf
  · intro h
    unfold calculateScore
    rw [if_pos h]

/-- Witness for C1 at a concrete match list, content and query, plus the
degenerate empty-match case. -/
theorem scorer_calculateScore_spec_witness :
    calculateScore defaultWeights [⟨1, none, none, none⟩]
        "hello hello".toList "hello".toList =
      min 1 (max 0
        (0.4 * min 1 (Real.log (1 + 100 *
            ((countOccurrences (lowerStr "hello hello".toList)
                (lowerStr "hello".toList) : ℝ) /
              (wordCount "hello hello".toList : ℝ))) / Real.log 101) +
         0.3 * Real.exp (-3 *
            ((firstLine [⟨1, none, none, none⟩] : ℝ) - 1) /
            (lineCount "hello hello".toList : ℝ)) +
         0.3 * min 1 (Real.log (1 + 100 *
            (([(⟨1, none, none, none⟩ : SMatch)].length : ℝ)) /
            (lineCount "hello hello".toList : ℝ)) / Real.log 51))) ∧
    calculateScore defaultWeights [] "hello hello".toList
      "hello".toList = 0 :=
  ⟨(scorer_calculateScore_spec [⟨1, none, none, none⟩]
      "hello hello".toList "hello".toList).1 (by simp) (by simp) (by simp),
   (scorer_calculateScore_spec [] "hello hello".toList
      "hello".toList).2 (Or.inl rfl)⟩

end Scorer

theorem splitC_ne_nil (sep : Char) (s : Str) : splitC sep s ≠ [] := by
  cases s with
  | nil => simp [splitC]
  | cons c rest =>
    simp only [splitC]
    cases h : splitC sep rest with
    | nil => simp
    | cons r rs => by_cases hc : c = sep <;> simp [hc]

theorem splitC_no_sep (sep : Char) (s : Str) (h : sep ∉ s) :
    splitC sep s = [s] := by
  induction s with
  | nil => rfl
  | cons c rest ih =>
    have hc : c ≠ sep := fun hcc => h (hcc ▸ List.mem_cons_self c rest)
    have hr : sep ∉ rest := fun hm => h (List.mem_cons_of_mem c hm)
    simp only [splitC, ih hr]
    simp [hc]

theorem splitC_append_sep (sep : Char) (a t : Str) (h : sep ∉ a) :
    splitC sep (a ++ sep :: t) = a :: splitC sep t := by
  induction a with
  | nil =>
    simp only [List.nil_append, splitC]
    cases hsp : splitC sep t with
    | nil => exact absurd hsp (splitC_ne_nil sep t)
    | cons r rs => simp
  | cons c a2 ih =>
    have hc : c ≠ sep := fun hcc => h (hcc ▸ List.mem_cons_self c a2)
    have ha2 : sep ∉ a2 := fun hm => h (List.mem_cons_of_mem c hm)
    rw [List.cons_append]
    simp only [splitC]
    rw [ih ha2]
    simp [hc]

theorem intercalate_cons2 (sep : Char) (a b : Str) (L : List Str) :
    List.intercalate [sep] (a :: b :: L) =
      a ++ sep :: List.intercalate [sep] (b :: L) := by
  simp [List.intercalate, List.intersperse_cons_cons]

theorem splitC_intercalate (sep : Char) :
    ∀ L : List Str, L ≠ [] → (∀ s ∈ L, sep ∉ s) →
      splitC sep (List.intercalate [sep] L) = L := by
  intro L
  induction L with
  | nil => intro h; exact absurd rfl h
  | cons a L2 ih =>
    intro _ hall
    cases L2 with
    | nil =>
      rw [show List.intercalate [sep] [a] = a by simp [List.intercalate]]
      exact splitC_no_sep sep a (hall a (List.mem_cons_self a []))
    | cons b L3 =>
      rw [intercalate_cons2]
      rw [splitC_append_sep sep a _ (hall a (List.mem_cons_self a _))]
      rw [ih (by simp) (fun s hs => hall s (List.mem_cons_of_mem a hs))]

theorem intercalate_ne_nil (sep : Char) (a : Str) (L : List Str)
    (ha : a ≠ []) : List.intercalate [sep] (a :: L) ≠ [] := by
  cases L with
  | nil => simpa [List.intercalate]
  | cons b L2 =>
    rw [intercalate_cons2]
    simp [ha]

theorem mem_intercalate (sep : Char) :
    ∀ (L : List Str) (c : Char), c ∈ List.intercalate [sep] L →
      c = sep ∨ ∃ t ∈ L, c ∈ t := by
  intro L
  induction L with
  | nil => intro c hc; simp [List.intercalate] at hc
  | cons a L2 ih =>
    intro c hc
    cases L2 with
    | nil =>
      rw [show List.intercalate [sep] [a] = a by simp [List.intercalate]]
        at hc
      exact Or.inr ⟨a, List.mem_cons_self a [], hc⟩
    | cons b L3 =>
      rw [intercalate_cons2] at hc
      rcases List.mem_append.mp hc with h1 | h1
      · exact Or.inr ⟨a, List.mem_cons_self a _, h1⟩
      · rcases List.mem_cons.mp h1 with h2 | h2
        · exact Or.inl h2
        · rcases ih c h2 with h3 | ⟨t, ht, hct⟩
          · exact Or.inl h3
          · exact Or.inr ⟨t, List.mem_cons_of_mem a ht, hct⟩

theorem append_singleton_inj {α : Type} {l1 l2 : List α} {a b : α}
    (h : l1 ++ [a] = l2 ++ [b]) : l1 = l2 ∧ a = b := by
  have h1 := congrArg List.reverse h
  simp only [List.reverse_append, List.reverse_cons, List.reverse_nil,
    List.nil_append, List.singleton_append] at h1
  obtain ⟨hab, hrev⟩ := List.cons.inj h1
  exact ⟨by
    have := congrArg List.reverse hrev
    simpa using this, hab⟩

theorem append_sep_inj (sep : Char) :
    ∀ (as cs bs ds : Str), sep ∉ as → sep ∉ cs →
      as ++ sep :: bs = cs ++ sep :: ds → as = cs ∧ bs = ds := by
  intro as
  induction as with
  | nil =>
    intro cs bs ds _ hc h
    cases cs with
    | nil =>
      simp only [List.nil_append] at h
      exact ⟨rfl, (List.cons.inj h).2⟩
    | cons x cs2 =>
      simp only [List.nil_append, List.cons_append] at h
      obtain ⟨hx, _⟩ := List.cons.inj h
      exact absurd (show sep ∈ x :: cs2 by
        rw [hx]; exact List.mem_cons_self x cs2) hc
  | cons a as2 ih =>
    intro cs bs ds ha hc h
    cases cs with
    | nil =>
      simp only [List.nil_append, List.cons_append] at h
      obtain ⟨hx, _⟩ := List.cons.inj h
      exact absurd (show sep ∈ a :: as2 by
        rw [← hx]; exact List.mem_cons_self a as2) ha
    | cons x cs2 =>
      simp only [List.cons_append] at h
      obtain ⟨hx, hrest⟩ := List.cons.inj h
      have ha2 : sep ∉ as2 := fun hm => ha (List.mem_cons_of_mem a hm)
      have hc2 : sep ∉ cs2 := fun hm => hc (List.mem_cons_of_mem x hm)
      obtain ⟨h1, h2⟩ := ih cs2 bs ds ha2 hc2 hrest
      exact ⟨by rw [hx, h1], h2⟩

namespace SearchResultCache

theorem natDigits_lt (n : Nat) (h : n < 10) :
    natDigits n = [Char.ofNat (48 + n)] := by
  rw [natDigits]
  exact dif_pos h

theorem natDigits_ge (n : Nat) (h : ¬ n < 10) :
    natDigits n = natDigits (n / 10) ++ [Char.ofNat (48 + n % 10)] := by
  rw [natDigits]
  exact dif_neg h

theorem natDigits_ne_nil (n : Nat) : natDigits n ≠ [] := by
  by_cases h : n < 10
  · rw [natDigits_lt n h]; simp
  · rw [natDigits_ge n h]; simp

theorem natDigits_chars (n : Nat) :
    ∀ c ∈ natDigits n, c ≠ '|' ∧ c ≠ '/' ∧ c ≠ '-' ∧ c ≠ ',' := by
  induction n using Nat.strong_induction_on with
  | _ n ih =>
    by_cases h : n < 10
    · rw [natDigits_lt n h]
      intro c hc
      simp only [List.mem_singleton] at hc
      subst hc
      interval_cases n <;> decide
    · rw [natDigits_ge n h]
      intro c hc
      rcases List.mem_append.mp hc with h1 | h1
      · exact ih (n / 10) (Nat.div_lt_self (by omega) (by omega)) c h1
      · simp only [List.mem_singleton] at h1
        subst h1
        have hm : n % 10 < 10 := Nat.mod_lt _ (by omega)
        generalize n % 10 = d at hm ⊢
        interval_cases d <;> decide

theorem charOfNat_digit_inj (a b : Nat) (ha : a < 10) (hb : b < 10) :
    Char.ofNat (48 + a) = Char.ofNat (48 + b) → a = b := by
  interval_cases a <;> interval_cases b <;> decide

theorem natDigits_inj (n : Nat) : ∀ m, natDigits n = natDigits m → n = m := by
  induction n using Nat.strong_induction_on with
  | _ n ih =>
    intro m h
    by_cases hn : n < 10 <;> by_cases hm : m < 10
    · rw [natDigits_lt n hn, natDigits_lt m hm] at h
      exact charOfNat_digit_inj n m hn hm (List.singleton_inj.mp h)
    · rw [natDigits_lt n hn, natDigits_ge m hm] at h
      have hlen := congrArg List.length h
      have hne := natDigits_ne_nil (m / 10)
      simp only [List.length_singleton, List.length_append] at hlen
      cases hq : natDigits (m / 10) with
      | nil => exact absurd hq hne
      | cons x xs => rw [hq] at hlen; simp at hlen
    · rw [natDigits_ge n hn, natDigits_lt m hm] at h
      have hlen := congrArg List.length h
      have hne := natDigits_ne_nil (n / 10)
      simp only [List.length_singleton, List.length_append] at hlen
      cases hq : natDigits (n / 10) with
      | nil => exact absurd hq hne
      | cons x xs => rw [hq] at hlen; simp at hlen
    · rw [natDigits_ge n hn, natDigits_ge m hm] at h
      obtain ⟨h1, h2⟩ := append_singleton_inj h
      have hdiv := ih (n / 10) (Nat.div_lt_self (by omega) (by omega))
        (m / 10) h1
      have hmod := charOfNat_digit_inj (n % 10) (m % 10)
        (Nat.mod_lt _ (by omega)) (Nat.mod_lt _ (by omega)) h2
      omega

theorem intRender_chars (i : Int) :
    ∀ c ∈ intRender i, c ≠ '|' ∧ c ≠ '/' ∧ c ≠ ',' := by
  unfold intRender
  split
  · intro c hc
    rcases List.mem_cons.mp hc with h1 | h1
    · subst h1; refine ⟨by decide, by decide, by decide⟩
    · obtain ⟨a, b, _, d⟩ := natDigits_chars _ c h1
      exact ⟨a, b, d⟩
  · intro c hc
    obtain ⟨a, b, _, d⟩ := natDigits_chars _ c hc
    exact ⟨a, b, d⟩

theorem intRender_no_slash (i : Int) : '/' ∉ intRender i := by
  intro hc
  exact (intRender_chars i '/' hc).2.1 rfl

theorem intRender_inj (i j : Int) (h : intRender i = intRender j) :
    i = j := by
  unfold intRender at h
  by_cases hi : i < 0 <;> by_cases hj : j < 0
  · rw [if_pos hi, if_pos hj] at h
    have := natDigits_inj _ _ (List.cons.inj h).2
    omega
  · rw [if_pos hi, if_neg hj] at h
    have hmem : '-' ∈ natDigits j.toNat := h ▸ List.mem_cons_self '-' _
    exact absurd rfl (natDigits_chars _ '-' hmem).2.2.1
  · rw [if_neg hi, if_pos hj] at h
    have hmem : '-' ∈ natDigits i.toNat := h.symm ▸ List.mem_cons_self '-' _
    exact absurd rfl (natDigits_chars _ '-' hmem).2.2.1
  · rw [if_neg hi, if_neg hj] at h
    have := natDigits_inj _ _ h
    omega

theorem ratRender_inj (q1 q2 : ℚ) (h : ratRender q1 = ratRender q2) :
    q1 = q2 := by
  unfold ratRender at h
  obtain ⟨h1, h2⟩ := append_sep_inj '/' _ _ _ _
    (intRender_no_slash q1.num) (intRender_no_slash q2.num) h
  exact Rat.ext (intRender_inj _ _ h1) (natDigits_inj _ _ h2)

end SearchResultCache

namespace SearchResultCache

theorem ratRender_chars (q : ℚ) : ∀ c ∈ ratRender q, c ≠ '|' := by
  intro c hc
  unfold ratRender at hc
  rcases List.mem_append.mp hc with h1 | h1
  · exact (intRender_chars q.num c h1).1
  · rcases List.mem_cons.mp h1 with h2 | h2
    · subst h2; decide
    · exact (natDigits_chars q.den c h2).1

theorem mem_optPart {pre : Char} {s : Str} {y : Option Str} :
    s ∈ optPart pre y ↔ ∃ v, y = some v ∧ s = pre :: ':' :: v := by
  cases y <;> simp [optPart]

theorem truthy_eq_some {x : Option Str} {v : Str} :
    truthy x = some v ↔ x = some v ∧ v ≠ [] := by
  cases x with
  | none => simp [truthy]
  | some w =>
    have hrfl : truthy (some w) = if w = [] then none else some w := rfl
    rw [hrfl]
    by_cases hw : w = []
    · rw [if_pos hw]
      subst hw
      constructor
      · intro h; exact absurd h (by simp)
      · rintro ⟨h1, h2⟩; exact absurd (Option.some.inj h1).symm h2
    · rw [if_neg hw]
      constructor
      · intro h
        have hv := Option.some.inj h
        exact ⟨h, by rw [← hv]; exact hw⟩
      · exact fun h => h.1

theorem truthy_eq_none {x : Option Str} :
    truthy x = none ↔ x = none ∨ x = some [] := by
  cases x with
  | none => simp [truthy]
  | some w =>
    by_cases hw : w = []
    · subst hw; simp [truthy]
    · simp [truthy, hw]

theorem parts_props (o : SearchOptions)
    (hq : ∀ v ∈ o.query, v ≠ [] ∧ '|' ∉ v)
    (hg : ∀ v ∈ o.glob, v ≠ [] ∧ '|' ∉ v)
    (hr : ∀ v ∈ o.regex, v ≠ [] ∧ '|' ∉ v)
    (ht : ∀ ts ∈ o.tags, ts ≠ [] ∧ ∀ t ∈ ts, '|' ∉ t ∧ ',' ∉ t)
    (hf : ∀ v ∈ o.frontmatter, '|' ∉ v) :
    ∀ s ∈ keyParts o, s ≠ [] ∧ '|' ∉ s := by
  intro s hs
  simp only [keyParts, List.mem_append] at hs
  have hpart : ∀ (pre : Char) (v : Str), pre ≠ '|' → '|' ∉ v →
      (pre :: ':' :: v ≠ [] ∧ '|' ∉ pre :: ':' :: v) := by
    intro pre v hpre hv
    refine ⟨by simp, ?_⟩
    intro hmem
    rcases List.mem_cons.mp hmem with h1 | h1
    · exact hpre h1.symm
    · rcases List.mem_cons.mp h1 with h2 | h2
      · exact absurd h2.symm (by decide)
      · exact hv h2
  rcases hs with ((((((hs | hs) | hs) | hs) | hs) | hs) | hs) | hs
  · obtain ⟨v, hv, rfl⟩ := mem_optPart.mp hs
    obtain ⟨hvq, hnil⟩ := truthy_eq_some.mp hv
    exact hpart _ _ (by decide) (hq v hvq).2
  · obtain ⟨v, hv, rfl⟩ := mem_optPart.mp hs
    obtain ⟨hvq, hnil⟩ := truthy_eq_some.mp hv
    exact hpart _ _ (by decide) (hg v hvq).2
  · obtain ⟨v, hv, rfl⟩ := mem_optPart.mp hs
    obtain ⟨hvq, hnil⟩ := truthy_eq_some.mp hv
    exact hpart _ _ (by decide) (hr v hvq).2
  · obtain ⟨v, hv, rfl⟩ := mem_optPart.mp hs
    obtain ⟨n, hn, rfl⟩ := Option.map_eq_some'.mp hv
    exact hpart _ _ (by decide)
      (fun hm => (natDigits_chars n '|' hm).1 rfl)
  · obtain ⟨v, hv, rfl⟩ := mem_optPart.mp hs
    obtain ⟨n, hn, rfl⟩ := Option.map_eq_some'.mp hv
    exact hpart _ _ (by decide)
      (fun hm => (natDigits_chars n '|' hm).1 rfl)
  · obtain ⟨v, hv, rfl⟩ := mem_optPart.mp hs
    obtain ⟨qq, hn, rfl⟩ := Option.map_eq_some'.mp hv
    exact hpart _ _ (by decide) (fun hm => ratRender_chars qq '|' hm rfl)
  · obtain ⟨v, hv, rfl⟩ := mem_optPart.mp hs
    obtain ⟨ts, hts, rfl⟩ := Option.map_eq_some'.mp hv
    refine hpart _ _ (by decide) ?_
    intro hm
    rcases mem_intercalate ',' ts '|' hm with h1 | ⟨t, htm, hct⟩
    · exact absurd h1 (by decide)
    · exact ((ht ts hts).2 t htm).1 hct
  · obtain ⟨v, hv, rfl⟩ := mem_optPart.mp hs
    exact hpart _ _ (by decide) (hf v hv)

theorem filter_optPart_eq (x : Char) (y : Option Str) :
    (optPart x y).filter (fun s => s.head? = some x) = optPart x y := by
  cases y <;> simp [optPart]

theorem filter_optPart_ne (x pre : Char) (h : pre ≠ x) (y : Option Str) :
    (optPart pre y).filter (fun s => s.head? = some x) = [] := by
  cases y <;> simp [optPart, h]

theorem optPart_inj {x : Char} {a b : Option Str}
    (h : optPart x a = optPart x b) : a = b := by
  cases a <;> cases b <;> simp_all [optPart]

end SearchResultCache

namespace SearchResultCache

theorem keyParts_filter_q (o : SearchOptions) :
    (keyParts o).filter (fun s => s.head? = some 'q') =
      optPart 'q' (truthy o.query) := by
  simp only [keyParts, List.filter_append, filter_optPart_eq,
    filter_optPart_ne 'q' 'g' (by decide), filter_optPart_ne 'q' 'r' (by decide),
    filter_optPart_ne 'q' 'l' (by decide), filter_optPart_ne 'q' 'o' (by decide),
    filter_optPart_ne 'q' 's' (by decide), filter_optPart_ne 'q' 't' (by decide),
    filter_optPart_ne 'q' 'f' (by decide), List.append_nil, List.nil_append]

theorem keyParts_filter_g (o : SearchOptions) :
    (keyParts o).filter (fun s => s.head? = some 'g') =
      optPart 'g' (truthy o.glob) := by
  simp only [keyParts, List.filter_append, filter_optPart_eq,
    filter_optPart_ne 'g' 'q' (by decide), filter_optPart_ne 'g' 'r' (by decide),
    filter_optPart_ne 'g' 'l' (by decide), filter_optPart_ne 'g' 'o' (by decide),
    filter_optPart_ne 'g' 's' (by decide), filter_optPart_ne 'g' 't' (by decide),
    filter_optPart_ne 'g' 'f' (by decide), List.append_nil, List.nil_append]

theorem keyParts_filter_r (o : SearchOptions) :
    (keyParts o).filter (fun s => s.head? = some 'r') =
      optPart 'r' (truthy o.regex) := by
  simp only [keyParts, List.filter_append, filter_optPart_eq,
    filter_optPart_ne 'r' 'q' (by decide), filter_optPart_ne 'r' 'g' (by decide),
    filter_optPart_ne 'r' 'l' (by decide), filter_optPart_ne 'r' 'o' (by decide),
    filter_optPart_ne 'r' 's' (by decide), filter_optPart_ne 'r' 't' (by decide),
    filter_optPart_ne 'r' 'f' (by decide), List.append_nil, List.nil_append]

theorem keyParts_filter_l (o : SearchOptions) :
    (keyParts o).filter (fun s => s.head? = some 'l') =
      optPart 'l' (o.limit.map natDigits) := by
  simp only [keyParts, List.filter_append, filter_optPart_eq,
    filter_optPart_ne 'l' 'q' (by decide), filter_optPart_ne 'l' 'g' (by decide),
    filter_optPart_ne 'l' 'r' (by decide), filter_optPart_ne 'l' 'o' (by decide),
    filter_optPart_ne 'l' 's' (by decide), filter_optPart_ne 'l' 't' (by decide),
    filter_optPart_ne 'l' 'f' (by decide), List.append_nil, List.nil_append]

theorem keyParts_filter_o (o : SearchOptions) :
    (keyParts o).filter (fun s => s.head? = some 'o') =
      optPart 'o' (o.offset.map natDigits) := by
  simp only [keyParts, List.filter_append, filter_optPart_eq,
    filter_optPart_ne 'o' 'q' (by decide), filter_optPart_ne 'o' 'g' (by decide),
    filter_optPart_ne 'o' 'r' (by decide), filter_optPart_ne 'o' 'l' (by decide),
    filter_optPart_ne 'o' 's' (by decide), filter_optPart_ne 'o' 't' (by decide),
    filter_optPart_ne 'o' 'f' (by decide), List.append_nil, List.nil_append]

theorem keyParts_filter_s (o : SearchOptions) :
    (keyParts o).filter (fun s => s.head? = some 's') =
      optPart 's' (o.minScore.map ratRender) := by
  simp only [keyParts, List.filter_append, filter_optPart_eq,
    filter_optPart_ne 's' 'q' (by decide), filter_optPart_ne 's' 'g' (by decide),
    filter_optPart_ne 's' 'r' (by decide), filter_optPart_ne 's' 'l' (by decide),
    filter_optPart_ne 's' 'o' (by decide), filter_optPart_ne 's' 't' (by decide),
    filter_optPart_ne 's' 'f' (by decide), List.append_nil, List.nil_append]

theorem keyParts_filter_t (o : SearchOptions) :
    (keyParts o).filter (fun s => s.head? = some 't') =
      optPart 't' (o.tags.map (List.intercalate [','])) := by
  simp only [keyParts, List.filter_append, filter_optPart_eq,
    filter_optPart_ne 't' 'q' (by decide), filter_optPart_ne 't' 'g' (by decide),
    filter_optPart_ne 't' 'r' (by decide), filter_optPart_ne 't' 'l' (by decide),
    filter_optPart_ne 't' 'o' (by decide), filter_optPart_ne 't' 's' (by decide),
    filter_optPart_ne 't' 'f' (by decide), List.append_nil, List.nil_append]

theorem keyParts_filter_f (o : SearchOptions) :
    (keyParts o).filter (fun s => s.head? = some 'f') =
      optPart 'f' o.frontmatter := by
  simp only [keyParts, List.filter_append, filter_optPart_eq,
    filter_optPart_ne 'f' 'q' (by decide), filter_optPart_ne 'f' 'g' (by decide),
    filter_optPart_ne 'f' 'r' (by decide), filter_optPart_ne 'f' 'l' (by decide),
    filter_optPart_ne 'f' 'o' (by decide), filter_optPart_ne 'f' 's' (by decide),
    filter_optPart_ne 'f' 't' (by decide), List.append_nil, List.nil_append]

theorem optPart_eq_nil {pre : Char} {y : Option Str} :
    optPart pre y = [] ↔ y = none := by
  cases y <;> simp [optPart]

/-- Claim C2 counterexample: two option records that differ (one has the
query `a|g:b` and no glob, the other the query `a` and the glob `b`)
produce the same cache key `q:a|g:b`. -/
theorem generateKey_not_injective :
    generateKey { query := some "a|g:b".toList } =
      generateKey { query := some "a".toList, glob := some "b".toList } ∧
    ({ query := some "a|g:b".toList } : SearchOptions) ≠
      { query := some "a".toList, glob := some "b".toList } := by
  constructor <;> decide

end SearchResultCache

namespace SearchResultCache

theorem truthy_inj {x y : Option Str}
    (hx : ∀ v ∈ x, v ≠ []) (hy : ∀ v ∈ y, v ≠ [])
    (h : truthy x = truthy y) : x = y := by
  cases x with
  | none =>
    cases y with
    | none => rfl
    | some w =>
      rw [show truthy none = none from rfl,
        truthy_eq_some.mpr ⟨rfl, hy w rfl⟩] at h
      exact absurd h (by simp)
  | some w =>
    cases y with
    | none =>
      rw [show truthy none = none from rfl,
        truthy_eq_some.mpr ⟨rfl, hx w rfl⟩] at h
      exact absurd h (by simp)
    | some u =>
      rw [truthy_eq_some.mpr ⟨rfl, hx w rfl⟩,
        truthy_eq_some.mpr ⟨rfl, hy u rfl⟩] at h
      exact h

theorem map_inj_opt {α β : Type} {f : α → β}
    (hf : ∀ a b, f a = f b → a = b) {x y : Option α}
    (h : x.map f = y.map f) : x = y := by
  cases x <;> cases y <;> simp_all
  exact hf _ _ h

theorem tags_map_inj {x y : Option (List Str)}
    (hx : ∀ ts ∈ x, ts ≠ [] ∧ ∀ t ∈ ts, ',' ∉ t)
    (hy : ∀ ts ∈ y, ts ≠ [] ∧ ∀ t ∈ ts, ',' ∉ t)
    (h : x.map (List.intercalate [',']) = y.map (List.intercalate [','])) :
    x = y := by
  cases x <;> cases y <;> simp_all
  have h1 := congrArg (splitC ',') h
  rw [splitC_intercalate ',' _ (hx.1) (hx.2),
    splitC_intercalate ',' _ (hy.1) (hy.2)] at h1
  exact h1

/-- Claim C2 (amended): `generateKey` is a function of the option record's
field values alone (so identical field values always give identical keys),
but it is not injective on all records; it IS injective on records whose
string fields, when present, are non-empty and contain no `|` separator,
whose tag lists, when present, are non-empty with comma- and pipe-free
elements, and whose frontmatter serialization is pipe-free. -/
theorem generateKey_injective_on_safe (o1 o2 : SearchOptions)
    (hq1 : ∀ v ∈ o1.query, v ≠ [] ∧ '|' ∉ v)
    (hg1 : ∀ v ∈ o1.glob, v ≠ [] ∧ '|' ∉ v)
    (hr1 : ∀ v ∈ o1.regex, v ≠ [] ∧ '|' ∉ v)
    (ht1 : ∀ ts ∈ o1.tags, ts ≠ [] ∧ ∀ t ∈ ts, '|' ∉ t ∧ ',' ∉ t)
    (hf1 : ∀ v ∈ o1.frontmatter, '|' ∉ v)
    (hq2 : ∀ v ∈ o2.query, v ≠ [] ∧ '|' ∉ v)
    (hg2 : ∀ v ∈ o2.glob, v ≠ [] ∧ '|' ∉ v)
    (hr2 : ∀ v ∈ o2.regex, v ≠ [] ∧ '|' ∉ v)
    (ht2 : ∀ ts ∈ o2.tags, ts ≠ [] ∧ ∀ t ∈ ts, '|' ∉ t ∧ ',' ∉ t)
    (hf2 : ∀ v ∈ o2.frontmatter, '|' ∉ v)
    (h : generateKey o1 = generateKey o2) : o1 = o2 := by
  have hp1 := parts_props o1 hq1 hg1 hr1 ht1 hf1
  have hp2 := parts_props o2 hq2 hg2 hr2 ht2 hf2
  have hparts : keyParts o1 = keyParts o2 := by
    by_cases h1 : keyParts o1 = []
    · by_cases h2 : keyParts o2 = []
      · rw [h1, h2]
      · exfalso
        cases hk2 : keyParts o2 with
        | nil => exact h2 hk2
        | cons p rest =>
          unfold generateKey at h
          rw [h1, hk2,
            show List.intercalate ['|'] ([] : List Str) = [] from rfl] at h
          have hpne : p ≠ [] :=
            (hp2 p (by rw [hk2]; exact List.mem_cons_self p rest)).1
          exact intercalate_ne_nil '|' p rest hpne h.symm
    · by_cases h2 : keyParts o2 = []
      · exfalso
        cases hk1 : keyParts o1 with
        | nil => exact h1 hk1
        | cons p rest =>
          unfold generateKey at h
          rw [h2, hk1,
            show List.intercalate ['|'] ([] : List Str) = [] from rfl] at h
          have hpne : p ≠ [] :=
            (hp1 p (by rw [hk1]; exact List.mem_cons_self p rest)).1
          exact intercalate_ne_nil '|' p rest hpne h
      · have hs := congrArg (splitC '|') h
        unfold generateKey at hs
        rw [splitC_intercalate '|' _ h1 (fun s hsm => (hp1 s hsm).2),
          splitC_intercalate '|' _ h2 (fun s hsm => (hp2 s hsm).2)] at hs
        exact hs
  have hfil : ∀ x : Char,
      (keyParts o1).filter (fun s => s.head? = some x) =
      (keyParts o2).filter (fun s => s.head? = some x) := fun x => by
    rw [hparts]
  have e1 : o1.query = o2.query :=
    truthy_inj (fun v hv => (hq1 v hv).1) (fun v hv => (hq2 v hv).1)
      (optPart_inj
        ((keyParts_filter_q o1).symm.trans
          ((hfil 'q').trans (keyParts_filter_q o2))))
  have e2 : o1.glob = o2.glob :=
    truthy_inj (fun v hv => (hg1 v hv).1) (fun v hv => (hg2 v hv).1)
      (optPart_inj
        ((keyParts_filter_g o1).symm.trans
          ((hfil 'g').trans (keyParts_filter_g o2))))
  have e3 : o1.regex = o2.regex :=
    truthy_inj (fun v hv => (hr1 v hv).1) (fun v hv => (hr2 v hv).1)
      (optPart_inj
        ((keyParts_filter_r o1).symm.trans
          ((hfil 'r').trans (keyParts_filter_r o2))))
  have e4 : o1.limit = o2.limit :=
    map_inj_opt natDigits_inj
      (optPart_inj
        ((keyParts_filter_l o1).symm.trans
          ((hfil 'l').trans (keyParts_filter_l o2))))
  have e5 : o1.offset = o2.offset :=
    map_inj_opt natDigits_inj
      (optPart_inj
        ((keyParts_filter_o o1).symm.trans
          ((hfil 'o').trans (keyParts_filter_o o2))))
  have e6 : o1.minScore = o2.minScore :=
    map_inj_opt (fun a b => ratRender_inj a b)
      (optPart_inj
        ((keyParts_filter_s o1).symm.trans
          ((hfil 's').trans (keyParts_filter_s o2))))
  have e7 : o1.tags = o2.tags :=
    tags_map_inj
      (fun ts hts => ⟨(ht1 ts hts).1,
        fun t ht => ((ht1 ts hts).2 t ht).2⟩)
      (fun ts hts => ⟨(ht2 ts hts).1,
        fun t ht => ((ht2 ts hts).2 t ht).2⟩)
      (optPart_inj
        ((keyParts_filter_t o1).symm.trans
          ((hfil 't').trans (keyParts_filter_t o2))))
  have e8 : o1.frontmatter = o2.frontmatter :=
    optPart_inj
      ((keyParts_filter_f o1).symm.trans
        ((hfil 'f').trans (keyParts_filter_f o2)))
  cases o1
  cases o2
  congr 1

/-- Witness for C2 at a concrete safe option record. -/
theorem generateKey_injective_on_safe_witness :
    ({ query := some "a".toList } : SearchOptions) =
      { query := some "a".toList } :=
  generateKey_injective_on_safe
    { query := some "a".toList } { query := some "a".toList }
    (by
      intro v hv
      simp only [Option.mem_def, Option.some.injEq] at hv
      subst hv
      exact ⟨by decide, by decide⟩)
    (by intro v hv; simp at hv)
    (by intro v hv; simp at hv)
    (by intro v hv; simp at hv)
    (by intro v hv; simp at hv)
    (by
      intro v hv
      simp only [Option.mem_def, Option.some.injEq] at hv
      subst hv
      exact ⟨by decide, by decide⟩)
    (by intro v hv; simp at hv)
    (by intro v hv; simp at hv)
    (by intro v hv; simp at hv)
    (by intro v hv; simp at hv)
    rfl

end SearchResultCache

theorem mem_splitC_no_sep (sep : Char) :
    ∀ (s : Str), ∀ x ∈ splitC sep s, sep ∉ x := by
  intro s
  induction s with
  | nil =>
    intro x hx
    simp [splitC] at hx
    subst hx
    simp
  | cons c rest ih =>
    intro x hx
    cases hsp : splitC sep rest with
    | nil => exact absurd hsp (splitC_ne_nil sep rest)
    | cons r rs =>
      rw [hsp] at ih
      simp only [splitC, hsp] at hx
      by_cases hc : c = sep
      · rw [if_pos hc] at hx
        rcases List.mem_cons.mp hx with h1 | h1
        · subst h1; simp
        · exact ih x h1
      · rw [if_neg hc] at hx
        rcases List.mem_cons.mp hx with h1 | h1
        · subst h1
          intro hmem
          rcases List.mem_cons.mp hmem with h2 | h2
          · exact hc h2.symm
          · exact ih r (List.mem_cons_self r rs) h2
        · exact ih x (List.mem_cons_of_mem r h1)

theorem mem_of_mem_splitC (sep : Char) :
    ∀ (s : Str), ∀ x ∈ splitC sep s, ∀ c ∈ x, c ∈ s := by
  intro s
  induction s with
  | nil =>
    intro x hx c hc
    simp [splitC] at hx
    subst hx
    simp at hc
  | cons a rest ih =>
    intro x hx c hc
    cases hsp : splitC sep rest with
    | nil => exact absurd hsp (splitC_ne_nil sep rest)
    | cons r rs =>
      rw [hsp] at ih
      simp only [splitC, hsp] at hx
      by_cases ha : a = sep
      · rw [if_pos ha] at hx
        rcases List.mem_cons.mp hx with h1 | h1
        · subst h1; simp at hc
        · exact List.mem_cons_of_mem a (ih x h1 c hc)
      · rw [if_neg ha] at hx
        rcases List.mem_cons.mp hx with h1 | h1
        · subst h1
          rcases List.mem_cons.mp hc with h2 | h2
          · exact h2 ▸ List.mem_cons_self a rest
          · exact List.mem_cons_of_mem a (ih r (List.mem_cons_self r rs) c h2)
        · exact List.mem_cons_of_mem a (ih x (List.mem_cons_of_mem r h1) c hc)

theorem normalizeSlashes_no_bs :
    ∀ {s : Str}, normalizeSlashes s = s → '\\' ∉ s := by
  intro s
  induction s with
  | nil => intro _; simp
  | cons c t ih =>
    intro h
    simp only [normalizeSlashes, List.map_cons, List.cons.injEq] at h
    intro hm
    rcases List.mem_cons.mp hm with h1 | h1
    · rw [← h1] at h
      exact absurd h.1 (by decide)
    · exact ih h.2 h1

theorem normalizeSlashes_of_no_bs :
    ∀ {s : Str}, '\\' ∉ s → normalizeSlashes s = s := by
  intro s
  induction s with
  | nil => intro _; rfl
  | cons c t ih =>
    intro h
    have hc : c ≠ '\\' := by
      intro he
      subst he
      exact h (List.mem_cons_self _ t)
    have ht : '\\' ∉ t := fun hm => h (List.mem_cons_of_mem c hm)
    simp only [normalizeSlashes, List.map_cons] at ih ⊢
    rw [if_neg hc, ih ht]

theorem normalizeSlashes_idem (s : Str) :
    normalizeSlashes (normalizeSlashes s) = normalizeSlashes s := by
  induction s with
  | nil => rfl
  | cons c t ih =>
    simp only [normalizeSlashes, List.map_cons] at ih ⊢
    by_cases hc : c = '\\'
    · simp only [if_pos hc]
      rw [if_neg (show ('/' : Char) ≠ '\\' by decide)]
      exact congrArg _ ih
    · simp only [if_neg hc]
      exact congrArg _ ih

namespace PathTrie

theorem mem_insertNode {ns : List (List Str)} {q r : List Str} :
    r ∈ insertNode ns q ↔ r ∈ ns ∨ r = q := by
  unfold insertNode
  by_cases h : q ∈ ns
  · rw [if_pos h]
    exact ⟨Or.inl, fun hr => hr.elim id (fun he => he ▸ h)⟩
  · rw [if_neg h]
    simp

theorem mem_foldl_insertNode (g : Nat → List Str) :
    ∀ (n : Nat) (ns : List (List Str)) (r : List Str),
      r ∈ (List.range n).foldl (fun ms i => insertNode ms (g i)) ns ↔
        r ∈ ns ∨ ∃ i, i < n ∧ r = g i := by
  intro n
  induction n with
  | zero => intro ns r; simp
  | succ m ih =>
    intro ns r
    rw [List.range_succ, List.foldl_append, List.foldl_cons, List.foldl_nil,
      mem_insertNode, ih]
    constructor
    · rintro ((h | ⟨i, him, hr⟩) | h)
      · exact Or.inl h
      · exact Or.inr ⟨i, Nat.lt_succ_of_lt him, hr⟩
      · exact Or.inr ⟨m, Nat.lt_succ_self m, h⟩
    · rintro (h | ⟨i, him, hr⟩)
      · exact Or.inl (Or.inl h)
      · rcases Nat.lt_succ_iff_lt_or_eq.mp him with h2 | h2
        · exact Or.inl (Or.inr ⟨i, h2, hr⟩)
        · exact Or.inr (h2 ▸ hr)

theorem insert_eq_pos {t : TrieState} {p : Str} (hp : p ≠ [])
    (hw : WellFormedPath p) (hnp : normalizeSlashes p ∉ t.allFiles) :
    insert t p =
      { nodes := insertNode
          ((List.range (splitC '/' (normalizeSlashes p)).dropLast.length).foldl
            (fun ns i =>
              insertNode ns
                ((splitC '/' (normalizeSlashes p)).dropLast.take (i + 1)))
            t.nodes)
          (splitC '/' (normalizeSlashes p)),
        filesAt := t.filesAt ++
          [(splitC '/' (normalizeSlashes p), normalizeSlashes p)],
        allFiles := t.allFiles ++ [normalizeSlashes p],
        fileCount := t.fileCount + 1 } := by
  have hne : splitC '/' (normalizeSlashes p) ≠ [] := splitC_ne_nil _ _
  have hfn : (splitC '/' (normalizeSlashes p)).getLast hne ≠ [] := by
    intro he
    exact hw (he ▸ List.getLast_mem hne)
  have hdl : ((splitC '/' (normalizeSlashes p)).dropLast).filter
      (fun s => s ≠ []) = (splitC '/' (normalizeSlashes p)).dropLast := by
    rw [List.filter_eq_self]
    intro a ha
    exact decide_eq_true (fun he => hw (he ▸ List.dropLast_subset _ ha))
  simp only [insert, if_neg hp, if_neg hnp, hdl,
    List.getLast?_eq_getLast _ hne, if_neg hfn]
  rw [List.dropLast_append_getLast hne]

theorem mem_insert_nodes {t : TrieState} {p : Str} (hp : p ≠ [])
    (hw : WellFormedPath p) (hnp : normalizeSlashes p ∉ t.allFiles)
    {r : List Str} :
    r ∈ (insert t p).nodes ↔ r ∈ t.nodes ∨
      ∃ j, 1 ≤ j ∧ j ≤ (splitC '/' (normalizeSlashes p)).length ∧
        r = (splitC '/' (normalizeSlashes p)).take j := by
  have hne := splitC_ne_nil '/' (normalizeSlashes p)
  have hlen : 1 ≤ (splitC '/' (normalizeSlashes p)).length :=
    Nat.one_le_iff_ne_zero.mpr
      (fun h0 => hne (List.length_eq_zero.mp h0))
  have hld := List.length_dropLast (splitC '/' (normalizeSlashes p))
  have h1 : (insert t p).nodes = insertNode
      ((List.range (splitC '/' (normalizeSlashes p)).dropLast.length).foldl
        (fun ns i =>
          insertNode ns
            ((splitC '/' (normalizeSlashes p)).dropLast.take (i + 1)))
        t.nodes)
      (splitC '/' (normalizeSlashes p)) := by
    rw [insert_eq_pos hp hw hnp]
  rw [h1, mem_insertNode, mem_foldl_insertNode]
  constructor
  · rintro ((h | ⟨i, him, hr⟩) | h)
    · exact Or.inl h
    · refine Or.inr ⟨i + 1, Nat.le_add_left 1 i, by omega, ?_⟩
      rw [hr, List.dropLast_eq_take, List.take_take]
      congr 1
      omega
    · exact Or.inr ⟨(splitC '/' (normalizeSlashes p)).length, hlen, le_refl _,
        by rw [List.take_length]; exact h⟩
  · rintro (h | ⟨j, hj1, hj2, hr⟩)
    · exact Or.inl (Or.inl h)
    · by_cases hj : j = (splitC '/' (normalizeSlashes p)).length
      · refine Or.inr ?_
        rw [hr, hj, List.take_length]
      · refine Or.inl (Or.inr ⟨j - 1, by omega, ?_⟩)
        rw [hr, List.dropLast_eq_take, List.take_take]
        congr 1
        omega

theorem wfT_insert {t : TrieState} (h : WfT t) {p : Str}
    (hw : WellFormedPath p) : WfT (PathTrie.insert t p) := by
  by_cases hp : p = []
  · have he : insert t p = t := by
      unfold insert
      rw [if_pos hp]
    rw [he]; exact h
  by_cases hnp : normalizeSlashes p ∈ t.allFiles
  · have he : insert t p = t := by
      simp only [insert, if_neg hp, if_pos hnp]
    rw [he]; exact h
  have hne := splitC_ne_nil '/' (normalizeSlashes p)
  have hlen : 1 ≤ (splitC '/' (normalizeSlashes p)).length :=
    Nat.one_le_iff_ne_zero.mpr
      (fun h0 => hne (List.length_eq_zero.mp h0))
  have hA : (insert t p).allFiles = t.allFiles ++ [normalizeSlashes p] := by
    rw [insert_eq_pos hp hw hnp]
  have hF : (insert t p).filesAt =
      t.filesAt ++ [(splitC '/' (normalizeSlashes p), normalizeSlashes p)] := by
    rw [insert_eq_pos hp hw hnp]
  refine ⟨?_, ?_, ?_, ?_⟩
  · exact (mem_insert_nodes hp hw hnp).mpr (Or.inl h.1)
  · intro q hq i
    rcases (mem_insert_nodes hp hw hnp).mp hq with hq1 | ⟨j, hj1, hj2, hr⟩
    · exact (mem_insert_nodes hp hw hnp).mpr (Or.inl (h.2.1 q hq1 i))
    · subst hr
      rw [List.take_take]
      rcases Nat.eq_zero_or_pos (min i j) with h0 | h0
      · rw [h0, List.take_zero]
        exact (mem_insert_nodes hp hw hnp).mpr (Or.inl h.1)
      · exact (mem_insert_nodes hp hw hnp).mpr
          (Or.inr ⟨min i j, h0, le_trans (min_le_right i j) hj2, rfl⟩)
  · intro r2 hr2
    rw [hF] at hr2
    rcases List.mem_append.mp hr2 with h1 | h1
    · obtain ⟨ha, hb, hc⟩ := h.2.2.1 r2 h1
      exact ⟨by rw [hA]; exact List.mem_append_left _ ha, hb,
        (mem_insert_nodes hp hw hnp).mpr (Or.inl hc)⟩
    · rw [List.mem_singleton] at h1
      subst h1
      refine ⟨by
        rw [hA]
        exact List.mem_append_right _ (List.mem_singleton.mpr rfl), rfl, ?_⟩
      exact (mem_insert_nodes hp hw hnp).mpr
        (Or.inr ⟨(splitC '/' (normalizeSlashes p)).length, hlen, le_refl _,
          (List.take_length _).symm⟩)
  · intro p2 hp2
    rw [hA] at hp2
    rcases List.mem_append.mp hp2 with h1 | h1
    · obtain ⟨ha, hb, hc⟩ := h.2.2.2 p2 h1
      exact ⟨ha, hb, by rw [hF]; exact List.mem_append_left _ hc⟩
    · rw [List.mem_singleton] at h1
      subst h1
      refine ⟨normalizeSlashes_idem p, hw, ?_⟩
      rw [hF]
      exact List.mem_append_right _ (List.mem_singleton.mpr rfl)

end PathTrie

namespace PathTrie

theorem pruneStep_sub {fa : List (List Str × Str)} {ns : List (List Str)}
    {q x : List Str} (h : x ∈ pruneStep fa ns q) : x ∈ ns := by
  unfold pruneStep at h
  split at h
  · exact List.mem_of_mem_filter h
  · exact h

theorem pruneFoldl_sub (fa : List (List Str × Str)) (g : Nat → List Str) :
    ∀ (L : List Nat) (ns : List (List Str)) (r : List Str),
      r ∈ L.foldl (fun ms i => pruneStep fa ms (g i)) ns → r ∈ ns := by
  intro L
  induction L with
  | nil => intro ns r h; exact h
  | cons i L2 ih =>
    intro ns r h
    rw [List.foldl_cons] at h
    exact pruneStep_sub (ih _ r h)

theorem pruneFoldl_removed (fa : List (List Str × Str)) (g : Nat → List Str) :
    ∀ (L : List Nat) (ns : List (List Str)) (r : List Str), r ∈ ns →
      r ∉ L.foldl (fun ms i => pruneStep fa ms (g i)) ns →
      ∃ ns', (∀ x ∈ L.foldl (fun ms i => pruneStep fa ms (g i)) ns, x ∈ ns') ∧
        ∃ i ∈ L, r = g i ∧ hasChild ns' (g i) = false ∧
          fa.all (fun r2 => r2.1 ≠ g i) = true := by
  intro L
  induction L with
  | nil => intro ns r hr hn; exact absurd hr hn
  | cons i L2 ih =>
    intro ns r hr hn
    rw [List.foldl_cons] at hn
    by_cases hr1 : r ∈ pruneStep fa ns (g i)
    · obtain ⟨ns', hsub, j, hjL, hgj, hhc, hall⟩ := ih _ r hr1 hn
      exact ⟨ns', by rw [List.foldl_cons]; exact hsub, j,
        List.mem_cons_of_mem i hjL, hgj, hhc, hall⟩
    · unfold pruneStep at hr1
      by_cases hg2 : g i ∈ ns ∧ ¬ hasChild ns (g i) ∧
          fa.all (fun r2 => r2.1 ≠ g i)
      · rw [if_pos hg2] at hr1
        have hreq : r = g i := by
          by_contra hne2
          exact hr1 (List.mem_filter.mpr ⟨hr, decide_eq_true hne2⟩)
        refine ⟨ns, ?_, i, List.mem_cons_self i L2, hreq,
          Bool.eq_false_iff.mpr hg2.2.1, hg2.2.2⟩
        intro x hx
        rw [List.foldl_cons] at hx
        exact pruneStep_sub (pruneFoldl_sub fa g L2 _ x hx)
      · rw [if_neg hg2] at hr1
        exact absurd hr hr1

theorem chainOk_of_mem_closed {t : TrieState} (h : WfT t) {S : List Str}
    (hS : S ∈ t.nodes) : chainOk t.nodes S = true := by
  unfold chainOk
  rw [List.all_eq_true]
  intro i _
  exact decide_eq_true (h.2.1 S hS (i + 1))

theorem remove_eq_pos {t : TrieState} (h : WfT t) {p : Str}
    (hmem : normalizeSlashes p ∈ t.allFiles) :
    remove t p =
      { nodes :=
          (List.range (splitC '/' (normalizeSlashes p)).length).reverse.foldl
            (fun ns i => pruneStep
              (t.filesAt.filter (fun r =>
                ¬ (r.1 = splitC '/' (normalizeSlashes p) ∧
                  r.2 = normalizeSlashes p)))
              ns ((splitC '/' (normalizeSlashes p)).take (i + 1)))
            t.nodes,
        filesAt := t.filesAt.filter (fun r =>
          ¬ (r.1 = splitC '/' (normalizeSlashes p) ∧
            r.2 = normalizeSlashes p)),
        allFiles := t.allFiles.filter (fun q => q ≠ normalizeSlashes p),
        fileCount := t.fileCount - 1 } := by
  obtain ⟨hnorm, hnem, hrecS⟩ := h.2.2.2 (normalizeSlashes p) hmem
  have hclean : ((splitC '/' (normalizeSlashes p)).filter (fun s => s ≠ []))
      = splitC '/' (normalizeSlashes p) := by
    rw [List.filter_eq_self]
    intro a ha
    exact decide_eq_true (fun he => hnem (he ▸ ha))
  have hSn : splitC '/' (normalizeSlashes p) ∈ t.nodes :=
    (h.2.2.1 _ hrecS).2.2
  have hchain := chainOk_of_mem_closed h hSn
  simp only [remove, hclean]
  rw [if_neg (not_not_intro hmem), if_neg (not_not_intro hchain)]
  rfl

theorem wfT_pruned (t : TrieState) (h : WfT t) (S : List Str) (np : Str)
    (hSne : S ≠ []) (hS : S = splitC '/' np) :
    WfT { nodes := (List.range S.length).reverse.foldl
            (fun ns i => pruneStep
              (t.filesAt.filter (fun r => ¬ (r.1 = S ∧ r.2 = np)))
              ns (S.take (i + 1))) t.nodes,
          filesAt := t.filesAt.filter (fun r => ¬ (r.1 = S ∧ r.2 = np)),
          allFiles := t.allFiles.filter (fun q => q ≠ np),
          fileCount := t.fileCount - 1 } := by
  set FF := t.filesAt.filter (fun r => ¬ (r.1 = S ∧ r.2 = np)) with hFF
  set NN := (List.range S.length).reverse.foldl
    (fun ns i => pruneStep FF ns (S.take (i + 1))) t.nodes with hNN
  have hsub : ∀ x ∈ NN, x ∈ t.nodes := by
    intro x hx
    rw [hNN] at hx
    exact pruneFoldl_sub FF (fun i => S.take (i + 1)) _ t.nodes x hx
  have hrem : ∀ x ∈ t.nodes, x ∉ NN →
      ∃ ns', (∀ y ∈ NN, y ∈ ns') ∧ ∃ i, x = S.take (i + 1) ∧
        hasChild ns' (S.take (i + 1)) = false ∧
        FF.all (fun r2 => r2.1 ≠ S.take (i + 1)) = true := by
    intro x hx hnx
    rw [hNN] at hnx
    obtain ⟨ns', hsub', i, _, hgi, hhc, hall⟩ :=
      pruneFoldl_removed FF (fun i => S.take (i + 1)) _ t.nodes x hx hnx
    exact ⟨ns', by rw [hNN]; exact hsub', i, hgi, hhc, hall⟩
  have hstep : ∀ r, r ∈ NN → ∀ i, i < r.length → r.take (i + 1) ∈ NN →
      r.take i ∈ NN := by
    intro r hr i hi hr1
    by_contra hno
    have hrn : r.take i ∈ t.nodes := h.2.1 r (hsub r hr) i
    obtain ⟨ns', hsub', j, hgj, hhc, _⟩ := hrem _ hrn hno
    have hchild : hasChild ns' (r.take i) = true := by
      unfold hasChild
      rw [List.any_eq_true]
      refine ⟨r.take (i + 1), hsub' _ hr1, decide_eq_true ⟨?_, ?_⟩⟩
      · rw [List.length_take, List.length_take]
        omega
      · rw [List.take_take, List.length_take]
        congr 1
        omega
    rw [hgj] at hchild
    rw [hchild] at hhc
    exact absurd hhc (by decide)
  have hclosure : ∀ r ∈ NN, ∀ i, r.take i ∈ NN := by
    intro r hr
    have haux : ∀ d, r.take (r.length - d) ∈ NN := by
      intro d
      induction d with
      | zero => rw [Nat.sub_zero, List.take_length]; exact hr
      | succ d2 ihd =>
        by_cases hd : r.length ≤ d2
        · have he2 : r.length - (d2 + 1) = r.length - d2 := by omega
          rw [he2]; exact ihd
        · have hi : r.length - (d2 + 1) < r.length := by omega
          refine hstep r hr _ hi ?_
          have he2 : r.length - (d2 + 1) + 1 = r.length - d2 := by omega
          rw [he2]; exact ihd
    intro i
    by_cases hi : r.length ≤ i
    · rw [List.take_of_length_le hi]; exact hr
    · have he2 : i = r.length - (r.length - i) := by omega
      rw [he2]; exact haux (r.length - i)
  have hnil : [] ∈ NN := by
    by_contra h0
    obtain ⟨ns', _, i, hgi, _, _⟩ := hrem [] h.1 h0
    rcases List.take_eq_nil_iff.mp hgi.symm with h1 | h1
    · omega
    · exact hSne h1
  refine ⟨hnil, hclosure, ?_, ?_⟩
  · intro r2 hr2
    have hr2' : r2 ∈ FF := hr2
    rw [hFF, List.mem_filter] at hr2'
    obtain ⟨hmem2, hcond⟩ := hr2'
    obtain ⟨ha, hb, hc⟩ := h.2.2.1 r2 hmem2
    have hcond' : ¬ (r2.1 = S ∧ r2.2 = np) := of_decide_eq_true hcond
    refine ⟨?_, hb, ?_⟩
    · show r2.2 ∈ t.allFiles.filter (fun q => q ≠ np)
      rw [List.mem_filter]
      refine ⟨ha, decide_eq_true ?_⟩
      intro he
      have h12 : r2.1 = S := by
        rw [hb, he, hS]
      exact hcond' ⟨h12, he⟩
    · show r2.1 ∈ NN
      by_contra hno
      obtain ⟨ns', _, i, hgi, _, hall⟩ := hrem r2.1 hc hno
      rw [List.all_eq_true] at hall
      exact of_decide_eq_true (hall r2 hr2) hgi
  · intro p2 hp2
    have hp2' : p2 ∈ t.allFiles.filter (fun q => q ≠ np) := hp2
    rw [List.mem_filter] at hp2'
    obtain ⟨hmem2, hne2⟩ := hp2'
    obtain ⟨ha, hb, hc⟩ := h.2.2.2 p2 hmem2
    have hne2' : p2 ≠ np := of_decide_eq_true hne2
    refine ⟨ha, hb, ?_⟩
    show (splitC '/' p2, p2) ∈ FF
    rw [hFF, List.mem_filter]
    exact ⟨hc, decide_eq_true (fun hand => hne2' hand.2)⟩

theorem wfT_remove {t : TrieState} (h : WfT t) (p : Str) :
    WfT (remove t p) := by
  by_cases hmem : normalizeSlashes p ∈ t.allFiles
  · rw [remove_eq_pos h hmem]
    exact wfT_pruned t h _ _ (splitC_ne_nil _ _) rfl
  · have he : remove t p = t := by
      simp only [remove]
      rw [if_pos hmem]
    rw [he]; exact h

theorem wfT_empty : WfT emptyTrie := by
  refine ⟨?_, ?_, ?_, ?_⟩
  · simp [emptyTrie]
  · intro q hq i
    simp only [emptyTrie, List.mem_singleton] at hq ⊢
    subst hq
    simp
  · intro r2 hr2
    simp [emptyTrie] at hr2
  · intro p2 hp2
    simp [emptyTrie] at hp2

theorem reachable_wfT {t : TrieState} (h : ReachableT t) : WfT t := by
  induction h with
  | empty => exact wfT_empty
  | ins p h2 hw ih => exact wfT_insert ih hw
  | rem p h2 ih => exact wfT_remove ih p

end PathTrie

namespace PathTrie

theorem noWild_cons {c : Char} {s : Str} (h : noWild (c :: s) = true) :
    c ≠ '*' ∧ c ≠ '?' ∧ c ≠ '[' ∧ noWild s = true := by
  unfold noWild at h ⊢
  rw [decide_eq_true_eq, List.any_cons, Bool.or_eq_true] at h
  push_neg at h
  obtain ⟨h1, h2⟩ := h
  have h1' : ¬ (c = '*' ∨ c = '?' ∨ c = '[') :=
    fun hP => h1 (decide_eq_true hP)
  push_neg at h1'
  exact ⟨h1'.1, h1'.2.1, h1'.2.2, decide_eq_true h2⟩

theorem compileSeg_cons_lit {c : Char} {s : Str} (h1 : c ≠ '*')
    (h2 : c ≠ '?') (h3 : c ≠ '[') :
    compileSeg (c :: s) = .lit c :: compileSeg s := by
  rw [compileSeg.eq_def]
  split <;> simp_all

theorem compileSeg_noWild : ∀ (s : Str), noWild s = true →
    compileSeg s = s.map GlobTok.lit := by
  intro s
  induction s with
  | nil => intro _; simp [compileSeg]
  | cons c s2 ih =>
    intro h
    obtain ⟨h1, h2, h3, h4⟩ := noWild_cons h
    rw [List.map_cons, compileSeg_cons_lit h1 h2 h3, ih h4]

theorem tokMatch_lits : ∀ (p s : Str),
    tokMatch (p.map GlobTok.lit) s = true ↔ p = s := by
  intro p
  induction p with
  | nil =>
    intro s
    cases s with
    | nil => simp [tokMatch]
    | cons c s2 => simp [tokMatch]
  | cons c p2 ih =>
    intro s
    cases s with
    | nil => simp [tokMatch]
    | cons d s2 =>
      rw [List.map_cons]
      simp [tokMatch, ih s2]

theorem segMatch_noWild {p : Str} (h : noWild p = true) (s : Str) :
    segMatch p s = true ↔ p = s := by
  unfold segMatch
  rw [compileSeg_noWild p h]
  exact tokMatch_lits p s

theorem listGlob_lit_take :
    ∀ (pre rest fsegs : List Str), (∀ x ∈ pre, noWild x = true) →
      listGlob (pre ++ rest) fsegs = true →
      fsegs.take pre.length = pre ∧
        listGlob rest (fsegs.drop pre.length) = true := by
  intro pre
  induction pre with
  | nil =>
    intro rest fsegs _ h
    exact ⟨rfl, h⟩
  | cons p pre2 ih =>
    intro rest fsegs hnw h
    have hp : noWild p = true := hnw p (List.mem_cons_self p pre2)
    have hpne : p ≠ ['*', '*'] := by
      intro he
      rw [he] at hp
      exact absurd hp (by decide)
    rw [List.cons_append] at h
    cases fsegs with
    | nil =>
      simp [listGlob, hpne] at h
    | cons f fs2 =>
      have h2 : segMatch p f = true ∧ listGlob (pre2 ++ rest) fs2 = true := by
        have h' := h
        simp [listGlob, hpne] at h'
        exact h'
      obtain ⟨hseg, hrest⟩ := h2
      have hpf : p = f := (segMatch_noWild hp f).mp hseg
      obtain ⟨htake, hdrop⟩ := ih rest fs2
        (fun x hx => hnw x (List.mem_cons_of_mem p hx)) hrest
      refine ⟨?_, ?_⟩
      · simp only [List.length_cons, List.take_succ_cons, htake]
        rw [hpf]
      · simp only [List.length_cons, List.drop_succ_cons]
        exact hdrop

end PathTrie

namespace PathTrie

theorem matchPrefix_sub_allFiles {t : TrieState} (h : WfT t) {pre f : Str}
    (hm : f ∈ matchPrefix t pre) : f ∈ t.allFiles := by
  simp only [matchPrefix] at hm
  split at hm
  · exact hm
  · split at hm
    · simp only [collectFiles] at hm
      rw [List.mem_map] at hm
      obtain ⟨r2, hr2, hf⟩ := hm
      rw [List.mem_filter] at hr2
      subst hf
      exact (h.2.2.1 r2 hr2.1).1
    · simp at hm

theorem mem_matchPrefix_of_glob {t : TrieState} (h : WfT t) {pattern f : Str}
    (hsp : extractSimplePrefix pattern ≠ [])
    (hf : f ∈ t.allFiles) (hg : globMatch pattern f = true) :
    f ∈ matchPrefix t (extractSimplePrefix pattern) := by
  obtain ⟨hnorm, hnem, hrec2⟩ := h.2.2.2 f hf
  have hfnodes : splitC '/' f ∈ t.nodes := (h.2.2.1 _ hrec2).2.2
  set pre := (splitC '/' pattern).takeWhile (fun s => noWild s) with hpre
  have hsplit : pre ++ (splitC '/' pattern).dropWhile (fun s => noWild s) =
      splitC '/' pattern := by
    rw [hpre]
    exact List.takeWhile_append_dropWhile _ _
  have hnwpre : ∀ x ∈ pre, noWild x = true := by
    intro x hx
    rw [hpre] at hx
    exact List.mem_takeWhile_imp hx
  unfold globMatch at hg
  rw [← hsplit] at hg
  obtain ⟨htake, _⟩ := listGlob_lit_take _ _ _ hnwpre hg
  have hmem2 : ∀ x ∈ pre, x ∈ splitC '/' f := by
    intro x hx
    rw [← htake] at hx
    exact List.mem_of_mem_take hx
  have hxne : ∀ x ∈ pre, x ≠ [] := fun x hx he => hnem (he ▸ hmem2 x hx)
  have hnosl : ∀ x ∈ pre, '/' ∉ x :=
    fun x hx => mem_splitC_no_sep '/' f x (hmem2 x hx)
  have hnobs2 : '\\' ∉ f := normalizeSlashes_no_bs hnorm
  have hnobs : ∀ x ∈ pre, '\\' ∉ x := by
    intro x hx hc
    exact hnobs2 (mem_of_mem_splitC '/' f x (hmem2 x hx) '\\' hc)
  have hprene : pre ≠ [] := by
    intro he
    apply hsp
    unfold extractSimplePrefix
    rw [← hpre, he]
    rfl
  have hspn : normalizeSlashes (extractSimplePrefix pattern) =
      extractSimplePrefix pattern := by
    apply normalizeSlashes_of_no_bs
    intro hc
    unfold extractSimplePrefix at hc
    rw [← hpre] at hc
    rcases mem_intercalate '/' pre '\\' hc with h1 | ⟨x, hx, hcx⟩
    · exact absurd h1 (by decide)
    · exact hnobs x hx hcx
  have hsps : splitC '/' (extractSimplePrefix pattern) = pre := by
    unfold extractSimplePrefix
    rw [← hpre]
    exact splitC_intercalate '/' pre hprene hnosl
  have hfilter : pre.filter (fun s => s ≠ []) = pre := by
    rw [List.filter_eq_self]
    intro a ha
    exact decide_eq_true (hxne a ha)
  have hpresub : ∀ i, i ≤ pre.length → pre.take i = (splitC '/' f).take i := by
    intro i hi
    have h1 := congrArg (List.take i) htake
    rw [List.take_take] at h1
    rw [min_eq_left hi] at h1
    exact h1.symm
  have hchain1 : chainOk t.nodes pre = true := by
    unfold chainOk
    rw [List.all_eq_true]
    intro i hi
    rw [List.mem_range] at hi
    refine decide_eq_true ?_
    rw [hpresub (i + 1) (by omega)]
    exact h.2.1 _ hfnodes (i + 1)
  have hchain2 : chainOk t.nodes (splitC '/' f) = true :=
    chainOk_of_mem_closed h hfnodes
  simp only [matchPrefix, hspn, hsps, hfilter]
  rw [if_neg hsp, if_pos hchain1]
  simp only [collectFiles]
  rw [List.mem_map]
  refine ⟨(splitC '/' f, f), ?_, rfl⟩
  rw [List.mem_filter]
  refine ⟨hrec2, decide_eq_true ⟨?_, hchain2⟩⟩
  rw [List.isPrefixOf_iff_prefix]
  show pre <+: splitC '/' f
  rw [← htake]
  exact List.take_prefix _ _

/-- Claim C9 (amended): for every PathTrie state reachable through inserts of
well-formed paths (no empty `/`-segments after normalisation) and arbitrary
removes, and for every NON-EMPTY glob pattern, `matchGlob` returns exactly the
files of `getAllFiles` selected by full glob semantics: the literal-prefix
narrowing through `matchPrefix` neither loses nor adds matches.  Both
restrictions exclude real divergences, exhibited by the counterexample: for
the empty pattern the code returns every file unfiltered although the empty
pattern glob-matches no stored file; and a path whose final segment is empty
(e.g. the trailing-slash path `a/`) is inserted into `allFiles` but recorded
at no trie node, so the pattern `a/` — non-empty, and glob-matching that very
file — comes back empty from the `matchPrefix` narrowing. -/
theorem pathTrie_matchGlob_refines (t : TrieState) (ht : ReachableT t)
    (pattern : Str) (hp : pattern ≠ []) (f : Str) :
    f ∈ matchGlob t pattern ↔
      f ∈ getAllFiles t ∧ globMatch pattern f = true := by
  have hw := reachable_wfT ht
  simp only [matchGlob]
  rw [if_neg hp]
  by_cases hsp : extractSimplePrefix pattern = []
  · rw [if_neg (not_not_intro hsp), List.mem_filter]
  · rw [if_pos hsp, List.mem_filter]
    constructor
    · rintro ⟨hf1, hf2⟩
      exact ⟨matchPrefix_sub_allFiles hw hf1, hf2⟩
    · rintro ⟨hf1, hf2⟩
      exact ⟨mem_matchPrefix_of_glob hw hsp hf1 hf2, hf2⟩

/-- Witness for C9 at a concrete reachable trie and a concrete pattern. -/
theorem pathTrie_matchGlob_refines_witness :
    ("a.md".toList ∈ matchGlob (insert emptyTrie "a.md".toList)
        "*.md".toList) ↔
      ("a.md".toList ∈ getAllFiles (insert emptyTrie "a.md".toList) ∧
        globMatch "*.md".toList "a.md".toList = true) :=
  pathTrie_matchGlob_refines _
    (ReachableT.ins _ ReachableT.empty
      (by unfold WellFormedPath; decide)) _ (by decide) _

/-- C9 counterexample, two divergences of `matchGlob` from "full glob
semantics over `getAllFiles`", each forcing one restriction of the amended
claim.  First: with the empty pattern, `matchGlob` returns every stored file
unfiltered, although the empty pattern glob-matches none of them.  Second:
after inserting the trailing-slash path `a/` (allowed by the original claim's
arbitrary-insert quantification, and a no-op in neither source nor model),
the file is in `allFiles` but recorded at no trie node, so for the NON-EMPTY
pattern `a/` — which glob-matches the file `a/` — `matchGlob` returns the
empty list: the equivalence fails on a state built by an insert of a path
with an empty `/`-segment. -/
theorem matchGlob_not_equiv_cex :
    (matchGlob (insert emptyTrie "a.md".toList) [] = ["a.md".toList] ∧
      globMatch [] "a.md".toList = false) ∧
    ("a/".toList ∈ getAllFiles (insert emptyTrie "a/".toList) ∧
      globMatch "a/".toList "a/".toList = true ∧
      matchGlob (insert emptyTrie "a/".toList) "a/".toList = []) := by
  refine ⟨⟨by decide, ?_⟩, by decide, ?_, by decide⟩
  · simp [globMatch, splitC, listGlob, segMatch, compileSeg, tokMatch]
  · simp [globMatch, splitC, listGlob, segMatch, compileSeg, tokMatch]

end PathTrie
